import Mathlib

/-!
Verification of the computational core of `power_sum_visual.py`
(MiscPythonTools): the power-sum pair enumerator, its cancellation and
progress protocol, the nearest-point click lookup, and the CSV export.

The Python data structures are embedded shallowly:
* `defaultdict(list)` keyed by integer sums becomes an association list
  `SumMap` that preserves key insertion order and per-key list order,
  exactly like a Python `dict`.
* `for` loops over `range(...)` become structural recursion over the
  corresponding explicit lists; `break`/`return` become early returns.
* The floating-point expression `int(max_sum ** (1.0 / power)) + 1` is
  embedded by its exact integer meaning `⌊max_sum ^ (1/power)⌋ + 1`
  (`iroot power max_sum + 1`); float rounding itself is out of scope.
-/

set_option maxRecDepth 20000

/-- Association list from a sum value to the list of pairs producing it,
mirroring the Python `defaultdict(list)` / `dict` (insertion-ordered). -/
abbrev SumMap := List (Nat × List (Nat × Nat))

/-- Embeds `sum_combinations[power_sum].append((a, b))`: append the pair to
the group of key `s`, creating the group at the end if the key is new. -/
def addPair : SumMap → Nat → Nat × Nat → SumMap
  | [], s, p => [(s, [p])]
  | (k, ps) :: rest, s, p =>
    if k = s then (k, ps ++ [p]) :: rest else (k, ps) :: addPair rest s p

/-- Dictionary lookup `sum_combinations[s]`, with `[]` for a missing key. -/
def lookupSum : SumMap → Nat → List (Nat × Nat)
  | [], _ => []
  | (k, ps) :: rest, s => if k = s then ps else lookupSum rest s

/-- The list of keys of a `SumMap`, in insertion order. -/
def keysOf (m : SumMap) : List Nat := m.map Prod.fst

/-- All pairs stored anywhere in the map, groups concatenated in order. -/
def allPairs (m : SumMap) : List (Nat × Nat) := m.flatMap Prod.snd

/-- The Python `range(lo, hi + 1)`, i.e. the list `[lo, lo+1, …, hi]`. -/
def rangeList (lo hi : Nat) : List Nat :=
  (List.range (hi + 1 - lo)).map (fun i => i + lo)

/-- Exact integer meaning of `int(n ** (1.0 / power))`: the largest `k`
with `k ^ power ≤ n` (and `0` when there is none). -/
def iroot (power n : Nat) : Nat :=
  ((List.range (n + 1)).filter (fun k => decide (k ^ power ≤ n))).foldl max 0

/-- Inner loop of `ComputationEngine.compute_power_sums`
(`for b in range(a, max_individual + 1)`), lines 106–117 of
`power_sum_visual.py`: append qualifying pairs; `break` only when the
overflowing `b` equals `a`; otherwise keep scanning. -/
def innerLoop (power max_sum a a_power : Nat) : List Nat → SumMap → SumMap
  | [], m => m
  | b :: bs, m =>
    let power_sum := a_power + b ^ power
    if power_sum ≤ max_sum then
      innerLoop power max_sum a a_power bs (addPair m power_sum (a, b))
    else if b = a then m
    else innerLoop power max_sum a a_power bs m

/-- Outer loop of `compute_power_sums`
(`for a in range(1, max_individual + 1)`), lines 98–117: `break` as soon
as `a ^ power` alone exceeds `max_sum`. -/
def outerLoop (power max_sum max_individual : Nat) : List Nat → SumMap → SumMap
  | [], m => m
  | a :: as, m =>
    let a_power := a ^ power
    if max_sum < a_power then m
    else
      outerLoop power max_sum max_individual as
        (innerLoop power max_sum a a_power (rangeList a max_individual) m)

/-- The mapping built by `ComputationEngine.compute_power_sums(power, max_sum)`
(lines 89–127), with `max_individual = ⌊max_sum^(1/power)⌋ + 1`. -/
def compute_power_sums (power max_sum : Nat) : SumMap :=
  let max_individual := iroot power max_sum + 1
  outerLoop power max_sum max_individual (rangeList 1 max_individual) []

/-- Modelled from the spec (refinement claim C4): the optimized inner loop
that "breaks the inner loop as soon as `a^power + b^power > max_sum`"
for any `b`, not only when `b == a`. -/
def innerLoopOpt (power max_sum a a_power : Nat) : List Nat → SumMap → SumMap
  | [], m => m
  | b :: bs, m =>
    let power_sum := a_power + b ^ power
    if power_sum ≤ max_sum then
      innerLoopOpt power max_sum a a_power bs (addPair m power_sum (a, b))
    else m

/-- Outer loop of the optimized enumerator; identical to `outerLoop` except
that it runs `innerLoopOpt`. -/
def outerLoopOpt (power max_sum max_individual : Nat) : List Nat → SumMap → SumMap
  | [], m => m
  | a :: as, m =>
    let a_power := a ^ power
    if max_sum < a_power then m
    else
      outerLoopOpt power max_sum max_individual as
        (innerLoopOpt power max_sum a a_power (rangeList a max_individual) m)

/-- Modelled from the spec: the optimized enumerator of claim C4, breaking
the inner scan at the first overflow. -/
def compute_power_sums_opt (power max_sum : Nat) : SumMap :=
  let max_individual := iroot power max_sum + 1
  outerLoopOpt power max_sum max_individual (rangeList 1 max_individual) []

/-- Brute-force cross-check of the spec ("brute-force scan of all
1 ≤ a ≤ b ≤ max_sum"): all pairs with `1 ≤ a ≤ b ≤ max_sum` and
`a^power + b^power ≤ max_sum`, scanned `a` ascending then `b` ascending. -/
def bruteForce (power max_sum : Nat) : List (Nat × Nat) :=
  (rangeList 1 max_sum).flatMap (fun a =>
    ((rangeList a max_sum).filter
      (fun b => decide (a ^ power + b ^ power ≤ max_sum))).map (fun b => (a, b)))

/-- The `ComputationResult` dataclass (lines 52–58). The `computation_time`
field is wall-clock time and is not modelled. -/
structure ComputationResult where
  power : Nat
  max_num : Nat
  sum_combinations : SumMap
deriving DecidableEq

/-- An event emitted by the engine during a run: `progress.emit(current,
total)` or `finished.emit(result)`. The `error` signal is unreachable in
the exact-integer model (the loop body raises no exception), so it does
not occur in traces. -/
inductive RunEvent where
  | progress (current total : Nat)
  | finished (result : ComputationResult)
deriving DecidableEq

/-- Terminal outcome of one invocation of `compute_power_sums`: it either
emits a completion or returns early after observing the stop flag. -/
inductive Outcome where
  | completed (result : ComputationResult)
  | cancelled
deriving DecidableEq

/-- The `ComputationEngine`'s only cross-thread state: `self.should_stop`. -/
structure EngineState where
  should_stop : Bool
deriving DecidableEq

/-- Embeds `ComputationEngine.stop_computation` (lines 72–74). -/
def stop_computation (e : EngineState) : EngineState :=
  { e with should_stop := true }

/-- Embeds the `self.should_stop = False` reset at line 88. -/
def resetEngine (e : EngineState) : EngineState :=
  { e with should_stop := false }

/-- Transient state threaded through one traced run: observed stop flag,
checkpoint counter (indexing the flag reads, which are the only points
where a concurrent `stop_computation` call can be observed), the
`current_pair` counter, the map built so far, and the emitted events. -/
structure RunState where
  flag : Bool
  ck : Nat
  current_pair : Nat
  m : SumMap
  evs : List RunEvent
deriving DecidableEq

/-- One `if self.should_stop:` read. The environment schedule `ext` says
whether `stop_computation` ran just before this checkpoint; once the flag
is true it stays true (the code never clears it mid-run). -/
def checkStop (ext : Nat → Bool) (s : RunState) : Bool × RunState :=
  let fl := s.flag || ext s.ck
  (fl, { s with flag := fl, ck := s.ck + 1 })

/-- Lines 119–121: `current_pair += 1` followed by the conditional
`progress.emit(current_pair, total_pairs)` every 1000 pairs. -/
def bumpProgress (total : Nat) (s : RunState) : RunState :=
  let cur := s.current_pair + 1
  if cur % 1000 = 0 then
    { s with current_pair := cur,
             evs := s.evs ++ [RunEvent.progress cur total] }
  else { s with current_pair := cur }

/-- Traced inner loop (lines 106–121); the returned Bool is true when the
run returned because the stop flag was observed. -/
def runInner (power max_sum a a_power total : Nat) (ext : Nat → Bool) :
    List Nat → RunState → RunState × Bool
  | [], s => (s, false)
  | b :: bs, s =>
    let c := checkStop ext s
    if c.1 then (c.2, true)
    else
      let power_sum := a_power + b ^ power
      if power_sum ≤ max_sum then
        runInner power max_sum a a_power total ext bs
          (bumpProgress total { c.2 with m := addPair c.2.m power_sum (a, b) })
      else if b = a then (c.2, false)
      else runInner power max_sum a a_power total ext bs (bumpProgress total c.2)

/-- Traced outer loop (lines 98–121). -/
def runOuter (power max_sum max_individual total : Nat) (ext : Nat → Bool) :
    List Nat → RunState → RunState × Bool
  | [], s => (s, false)
  | a :: as, s =>
    let c := checkStop ext s
    if c.1 then (c.2, true)
    else
      let a_power := a ^ power
      if max_sum < a_power then (c.2, false)
      else
        let r := runInner power max_sum a a_power total ext
          (rangeList a max_individual) c.2
        if r.2 then (r.1, true)
        else runOuter power max_sum max_individual total ext as r.1

/-- Full traced run of `ComputationEngine.compute_power_sums` (lines
84–134): reset the stop flag, compute `max_individual` and `total_pairs`
once, run both loops, and either return early on cancellation (emitting
nothing further) or emit `finished(result)`. Returns the event trace and
the terminal outcome. -/
def compute_power_sums_run (e : EngineState) (power max_sum : Nat)
    (ext : Nat → Bool) : List RunEvent × Outcome :=
  let e0 := resetEngine e
  let max_individual := iroot power max_sum + 1
  let total_pairs := max_individual * (max_individual + 1) / 2
  let s0 : RunState := ⟨e0.should_stop, 0, 0, [], []⟩
  let r := runOuter power max_sum max_individual total_pairs ext
    (rangeList 1 max_individual) s0
  if r.2 then (r.1.evs, Outcome.cancelled)
  else
    (r.1.evs ++ [RunEvent.finished ⟨power, max_sum, r.1.m⟩],
      Outcome.completed ⟨power, max_sum, r.1.m⟩)

/-- Python `sorted(keys)`: the keys of the map in ascending order. -/
def sortKeys (m : SumMap) : List Nat :=
  List.insertionSort (· ≤ ·) (keysOf m)

/-- The plotted series of `PlotWidget._on_click` (lines 242–243):
`sums = sorted(keys)` zipped with `counts = [len(group[s]) for s in sums]`. -/
def clickSeries (m : SumMap) : List (Nat × Nat) :=
  (sortKeys m).map (fun s => (s, (lookupSum m s).length))

/-- Squared display-space distance between the projection of a series
point `(sum, count)` and the projected query `(qx, qy)` (lines 250–257).
The code computes `dist = ((x_display - event_x)**2 + (y_display -
event_y)**2) ** 0.5` and only ever compares distances with each other and
with the constant 50; since the square root is strictly monotone on
nonnegative reals, all those comparisons are modelled exactly by
comparing the squared distances (and 50² = 2500). Display coordinates are
rationals (floats are rationals), and the per-axis view transforms `Tx`,
`Ty` are arbitrary functions, as in the source where `transData`
transforms each axis of both the series point and the query. -/
def distSq (Tx Ty : ℚ → ℚ) (qx qy : ℚ) (p : Nat × Nat) : ℚ :=
  (Tx (p.1 : ℚ) - Tx qx) ^ 2 + (Ty (p.2 : ℚ) - Ty qy) ^ 2

/-- Python's lexicographic `<` on the `(dist, i)` tuples of line 258. -/
def lexLtP (x y : ℚ × Nat) : Prop :=
  x.1 < y.1 ∨ (x.1 = y.1 ∧ x.2 < y.2)

instance decLexLtP (x y : ℚ × Nat) : Decidable (lexLtP x y) :=
  inferInstanceAs (Decidable (x.1 < y.1 ∨ (x.1 = y.1 ∧ x.2 < y.2)))

/-- Reflexive closure of `lexLtP`: lexicographic `≤` on `(dist, i)`. -/
def lexLeP (x y : ℚ × Nat) : Prop :=
  x.1 < y.1 ∨ (x.1 = y.1 ∧ x.2 ≤ y.2)

/-- Python `min(distances)` on a non-empty list of `(dist, i)` tuples:
the leftmost lexicographically minimal tuple (line 261). -/
def minTuple (x : ℚ × Nat) (xs : List (ℚ × Nat)) : ℚ × Nat :=
  xs.foldl (fun best y => if lexLtP y best then y else best) x

/-- Embeds `PlotWidget._on_click` (lines 236–266) for a present
`current_data` with mapping `m` and a click inside the axes: build the
sorted series, return early when it is empty, compute the squared display
distance to every point, take the lexicographic minimum of `(dist, i)`,
and accept iff the minimal distance is within the 50-pixel hit radius
(squared: 2500), emitting `(sum_value, count, pairs)`. -/
def on_click (m : SumMap) (Tx Ty : ℚ → ℚ) (qx qy : ℚ) :
    Option (Nat × Nat × List (Nat × Nat)) :=
  let pts := clickSeries m
  match pts.enum.map (fun ip => (distSq Tx Ty qx qy ip.2, ip.1)) with
  | [] => none
  | d :: ds =>
    let best := minTuple d ds
    if best.1 ≤ 2500 then
      match pts.get? best.2 with
      | some pt => some (pt.1, pt.2, lookupSum m pt.1)
      | none => none
    else none

/-- Decimal rendering of a natural number, as Python `str(n)`: the digits
of `n` most significant first (`"0"` for zero). -/
def natChars (n : Nat) : List Char :=
  if n = 0 then ['0'] else (Nat.digits 10 n).reverse.map Nat.digitChar

/-- The f-string `f"({a},{b})"` of line 659, as a character list. -/
def pairChars (p : Nat × Nat) : List Char :=
  '(' :: (natChars p.1 ++ ',' :: (natChars p.2 ++ [')']))

/-- Python `'; '.join(f"({a},{b})" for a, b in pairs)` (line 659). -/
def joinPairs : List (Nat × Nat) → List Char
  | [] => []
  | [p] => pairChars p
  | p :: q :: rest => pairChars p ++ ';' :: ' ' :: joinPairs (q :: rest)

/-- The header row written at line 654. -/
def csvHeader : List Char := "Sum,Count,Pairs".toList

/-- The data rows of `MainWindow._on_export_csv` (lines 656–660): one row
`(sum, count, pairs_str)` per sum value in ascending order. -/
def exportRows (m : SumMap) : List (Nat × Nat × List Char) :=
  (sortKeys m).map (fun s =>
    (s, (lookupSum m s).length, joinPairs (lookupSum m s)))

/-- The full CSV export artifact: header plus data rows. Quoting of the
`Pairs` field is performed by the external `csv` library and is not part
of this core's contract. -/
def export_csv (m : SumMap) : List Char × List (Nat × Nat × List Char) :=
  (csvHeader, exportRows m)

/-- Parse a maximal run of decimal digits: value and remaining input. -/
def readNat (cs : List Char) : Nat × List Char :=
  ((cs.takeWhile Char.isDigit).foldl (fun acc c => 10 * acc + (c.toNat - 48)) 0,
    cs.dropWhile Char.isDigit)

/-- Parse one `(a,b)` token, returning the pair and the remaining input. -/
def readPair (cs : List Char) : Option ((Nat × Nat) × List Char) :=
  match cs with
  | '(' :: rest =>
    match (readNat rest).2 with
    | ',' :: r2 =>
      match (readNat r2).2 with
      | ')' :: r4 => some (((readNat rest).1, (readNat r2).1), r4)
      | _ => none
    | _ => none
  | _ => none

/-- Parse a non-empty `"; "`-separated sequence of `(a,b)` tokens; `fuel`
bounds the recursion depth. -/
def readPairsAux : Nat → List Char → Option (List (Nat × Nat))
  | 0, _ => none
  | fuel + 1, cs =>
    match readPair cs with
    | none => none
    | some (p, rest) =>
      match rest with
      | [] => some [p]
      | ';' :: ' ' :: rest2 =>
        (readPairsAux fuel rest2).map (fun ps => p :: ps)
      | _ => none

/-- Parse a `Pairs` column back into the pair list it serializes. -/
def parsePairs (cs : List Char) : Option (List (Nat × Nat)) :=
  if cs = [] then some [] else readPairsAux (cs.length + 1) cs

/-- Re-parse an exported table: one mapping entry per row, keyed by the
row's sum, holding the pairs parsed from the `Pairs` column. -/
def parseRows : List (Nat × Nat × List Char) → Option SumMap
  | [] => some []
  | (s, _, str) :: rest =>
    match parsePairs str, parseRows rest with
    | some ps, some m2 => some ((s, ps) :: m2)
    | _, _ => none

/-- Whether an event is a progress event (as opposed to a terminal one). -/
def isProgressEv : RunEvent → Bool
  | .progress _ _ => true
  | .finished _ => false

/-- Number of `finished` events in a trace. -/
def countFinished (evs : List RunEvent) : Nat :=
  (evs.filter (fun e => ! isProgressEv e)).length

/-- The `current` components of the progress events of a trace, in order. -/
def evCurrents (evs : List RunEvent) : List Nat :=
  evs.filterMap (fun e =>
    match e with
    | .progress c _ => some c
    | .finished _ => none)

example : lookupSum (compute_power_sums 2 50) 50 = [(1, 7), (5, 5)] := by decide
example : lookupSum (compute_power_sums 2 50) 2 = [(1, 1)] := by decide
example : compute_power_sums 2 1 = [] := by decide
example : compute_power_sums 3 1000 ≠ [] := by decide

/-! ### Basic facts about `rangeList`, `iroot`, `addPair`, `lookupSum` -/

theorem rangeList_nil {lo hi : Nat} (h : hi < lo) : rangeList lo hi = [] := by
  unfold rangeList
  have : hi + 1 - lo = 0 := by omega
  simp [this]

theorem rangeList_cons {lo hi : Nat} (h : lo ≤ hi) :
    rangeList lo hi = lo :: rangeList (lo + 1) hi := by
  unfold rangeList
  have h1 : hi + 1 - lo = (hi + 1 - (lo + 1)) + 1 := by omega
  rw [h1, List.range_succ_eq_map, List.map_cons, List.map_map]
  congr 1
  · omega
  · apply List.map_congr_left
    intro i _
    simp only [Function.comp_apply]
    omega

theorem mem_rangeList {lo hi b : Nat} : b ∈ rangeList lo hi ↔ lo ≤ b ∧ b ≤ hi := by
  unfold rangeList
  simp only [List.mem_map, List.mem_range]
  constructor
  · rintro ⟨i, hi1, rfl⟩; omega
  · rintro ⟨h1, h2⟩; exact ⟨b - lo, by omega, by omega⟩

theorem le_foldl_max (l : List Nat) : ∀ a x, x ∈ l → x ≤ l.foldl max a := by
  induction l with
  | nil => intro a x hx; cases hx
  | cons y ys ih =>
    intro a x hx
    rcases List.mem_cons.mp hx with rfl | hx
    · calc x ≤ max a x := le_max_right _ _
        _ ≤ ys.foldl max (max a x) := by
            clear hx ih
            induction ys generalizing a x with
            | nil => exact le_refl _
            | cons z zs ihz =>
              simp only [List.foldl_cons]
              exact le_trans (le_max_left _ _) (ihz _ _)
    · exact ih _ _ hx

theorem le_iroot {power n b : Nat} (hp : power ≠ 0) (hb : b ^ power ≤ n) :
    b ≤ iroot power n := by
  unfold iroot
  apply le_foldl_max
  simp only [List.mem_filter, List.mem_range, decide_eq_true_eq]
  exact ⟨by have := Nat.le_self_pow hp b; omega, hb⟩

theorem lookupSum_addPair_self (m : SumMap) (s : Nat) (p : Nat × Nat) :
    lookupSum (addPair m s p) s = lookupSum m s ++ [p] := by
  induction m with
  | nil => simp [addPair, lookupSum]
  | cons e rest ih =>
    obtain ⟨k, ps⟩ := e
    by_cases hk : k = s
    · subst hk; simp [addPair, lookupSum]
    · simp [addPair, lookupSum, hk, ih]

theorem lookupSum_addPair_ne (m : SumMap) {s t : Nat} (p : Nat × Nat)
    (h : s ≠ t) : lookupSum (addPair m s p) t = lookupSum m t := by
  induction m with
  | nil => simp [addPair, lookupSum, h]
  | cons e rest ih =>
    obtain ⟨k, ps⟩ := e
    by_cases hk : k = s
    · subst hk; simp [addPair, lookupSum, h]
    · simp [addPair, lookupSum, hk, ih]

theorem mem_addPair_elim {m : SumMap} {s : Nat} {p : Nat × Nat} {k : Nat}
    {ps : List (Nat × Nat)} (h : (k, ps) ∈ addPair m s p) :
    (k, ps) ∈ m ∨
      (k = s ∧ (ps = [p] ∨ ∃ qs, (s, qs) ∈ m ∧ ps = qs ++ [p])) := by
  induction m with
  | nil =>
    simp only [addPair, List.mem_singleton] at h
    injection h with h1 h2
    subst h1; subst h2
    exact Or.inr ⟨rfl, Or.inl rfl⟩
  | cons e rest ih =>
    obtain ⟨k1, ps1⟩ := e
    by_cases hk : k1 = s
    · subst hk
      simp only [addPair, if_pos rfl] at h
      rcases List.mem_cons.mp h with h | h
      · injection h with h1 h2
        subst h1; subst h2
        exact Or.inr ⟨rfl, Or.inr ⟨ps1, List.mem_cons_self _ _, rfl⟩⟩
      · exact Or.inl (List.mem_cons_of_mem _ h)
    · simp only [addPair, if_neg hk, List.mem_cons] at h
      rcases h with h | h
      · exact Or.inl (List.mem_cons.mpr (Or.inl h))
      · rcases ih h with h1 | ⟨rfl, h2⟩
        · exact Or.inl (List.mem_cons_of_mem _ h1)
        · refine Or.inr ⟨rfl, ?_⟩
          rcases h2 with h2 | ⟨qs, hqs, rfl⟩
          · exact Or.inl h2
          · exact Or.inr ⟨qs, List.mem_cons_of_mem _ hqs, rfl⟩

theorem mem_allPairs_intro {m : SumMap} {k : Nat} {ps : List (Nat × Nat)}
    {p : Nat × Nat} (hm : (k, ps) ∈ m) (hp : p ∈ ps) : p ∈ allPairs m := by
  unfold allPairs
  exact List.mem_flatMap.mpr ⟨(k, ps), hm, hp⟩

theorem mem_allPairs_addPair {m : SumMap} {s : Nat} {p q : Nat × Nat}
    (h : q ∈ allPairs (addPair m s p)) : q ∈ allPairs m ∨ q = p := by
  unfold allPairs at h ⊢
  rcases List.mem_flatMap.mp h with ⟨⟨k, ps⟩, hk, hq⟩
  rcases mem_addPair_elim hk with h1 | ⟨rfl, h2⟩
  · exact Or.inl (List.mem_flatMap.mpr ⟨_, h1, hq⟩)
  · rcases h2 with rfl | ⟨qs, hqs, rfl⟩
    · exact Or.inr (List.mem_singleton.mp hq)
    · rcases List.mem_append.mp hq with h3 | h3
      · exact Or.inl (List.mem_flatMap.mpr ⟨_, hqs, h3⟩)
      · exact Or.inr (List.mem_singleton.mp h3)

theorem mem_keysOf_addPair {m : SumMap} {s t : Nat} {p : Nat × Nat}
    (h : t ∈ keysOf (addPair m s p)) : t ∈ keysOf m ∨ t = s := by
  induction m with
  | nil =>
    simp only [addPair, keysOf, List.map_cons, List.map_nil, List.mem_singleton] at h
    exact Or.inr h
  | cons e rest ih =>
    obtain ⟨k, ps⟩ := e
    by_cases hk : k = s
    · subst hk
      simp only [addPair, if_pos rfl, keysOf, List.map_cons] at h ⊢
      exact Or.inl h
    · simp only [addPair, if_neg hk, keysOf, List.map_cons, List.mem_cons] at h ⊢
      rcases h with rfl | h
      · exact Or.inl (Or.inl rfl)
      · rcases ih h with h1 | rfl
        · exact Or.inl (Or.inr h1)
        · exact Or.inr rfl

theorem keysOf_nodup_addPair {m : SumMap} {s : Nat} {p : Nat × Nat}
    (h : (keysOf m).Nodup) : (keysOf (addPair m s p)).Nodup := by
  induction m with
  | nil => simp [addPair, keysOf]
  | cons e rest ih =>
    obtain ⟨k, ps⟩ := e
    simp only [keysOf, List.map_cons, List.nodup_cons] at h
    by_cases hk : k = s
    · subst hk
      simpa [addPair, keysOf] using h
    · simp only [addPair, if_neg hk, keysOf, List.map_cons, List.nodup_cons]
      refine ⟨fun hmem => ?_, ih h.2⟩
      rcases mem_keysOf_addPair hmem with h1 | rfl
      · exact h.1 h1
      · exact hk rfl

/-! ### Invariants of the enumeration: soundness and discovery order -/

/-- Strict lexicographic order on pairs: `a` ascending, then `b` ascending.
This is the global discovery order of `compute_power_sums`. -/
def pairLt (p q : Nat × Nat) : Prop := p.1 < q.1 ∨ (p.1 = q.1 ∧ p.2 < q.2)

theorem pairLt_irrefl (p : Nat × Nat) : ¬ pairLt p p := by
  rintro (h | ⟨_, h⟩) <;> omega

theorem pairLt_ne {p q : Nat × Nat} (h : pairLt p q) : p ≠ q := by
  rintro rfl; exact pairLt_irrefl p h

theorem pairLt_snd_mono {p : Nat × Nat} {a b b' : Nat} (h : pairLt p (a, b))
    (hb : b ≤ b') : pairLt p (a, b') := by
  rcases h with h | ⟨h1, h2⟩
  · exact Or.inl h
  · exact Or.inr ⟨h1, by omega⟩

/-- Everything the enumerator guarantees about a pair stored under key `k`. -/
def SoundAt (power max_sum k : Nat) (p : Nat × Nat) : Prop :=
  1 ≤ p.1 ∧ p.1 ≤ p.2 ∧ p.1 ^ power + p.2 ^ power = k ∧ k ≤ max_sum

/-- Invariant maintained while building the map: keys are distinct, every
stored pair is sound for its key, and each group is strictly increasing in
the discovery order. -/
def MapInv (power max_sum : Nat) (m : SumMap) : Prop :=
  (keysOf m).Nodup ∧
  (∀ k ps, (k, ps) ∈ m → ∀ p ∈ ps, SoundAt power max_sum k p) ∧
  (∀ k ps, (k, ps) ∈ m → ps.Pairwise pairLt)

/-- All pairs already stored are strictly before `q` in discovery order. -/
def Below (m : SumMap) (q : Nat × Nat) : Prop := ∀ p ∈ allPairs m, pairLt p q

theorem MapInv_nil (power max_sum : Nat) : MapInv power max_sum [] := by
  refine ⟨List.nodup_nil, ?_, ?_⟩ <;> intro k ps h <;> cases h

theorem Below_nil (q : Nat × Nat) : Below [] q := by
  intro p hp
  simp [allPairs] at hp

theorem addPair_inv {power max_sum s : Nat} {p : Nat × Nat} {m : SumMap}
    (hinv : MapInv power max_sum m) (hs : SoundAt power max_sum s p)
    (hb : Below m p) : MapInv power max_sum (addPair m s p) := by
  obtain ⟨hkeys, hsound, hord⟩ := hinv
  refine ⟨keysOf_nodup_addPair hkeys, ?_, ?_⟩
  · intro k ps hmem q hq
    rcases mem_addPair_elim hmem with h1 | ⟨rfl, h2⟩
    · exact hsound _ _ h1 q hq
    · rcases h2 with rfl | ⟨qs, hqs, rfl⟩
      · rwa [List.mem_singleton.mp hq]
      · rcases List.mem_append.mp hq with h3 | h3
        · exact hsound _ _ hqs q h3
        · rwa [List.mem_singleton.mp h3]
  · intro k ps hmem
    rcases mem_addPair_elim hmem with h1 | ⟨rfl, h2⟩
    · exact hord _ _ h1
    · rcases h2 with rfl | ⟨qs, hqs, rfl⟩
      · exact List.pairwise_singleton _ _
      · refine List.pairwise_append.mpr ⟨hord _ _ hqs, List.pairwise_singleton _ _, ?_⟩
        intro x hx y hy
        rw [List.mem_singleton.mp hy]
        exact hb x (mem_allPairs_intro hqs hx)

theorem addPair_below {s : Nat} {p q : Nat × Nat} {m : SumMap}
    (hb : Below m q) (hp : pairLt p q) : Below (addPair m s p) q := by
  intro x hx
  rcases mem_allPairs_addPair hx with h1 | rfl
  · exact hb x h1
  · exact hp

theorem innerLoop_inv {power max_sum a : Nat} (ha : 1 ≤ a) :
    ∀ n b0 hi m, hi + 1 - b0 = n → a ≤ b0 →
      MapInv power max_sum m → Below m (a, b0) →
      MapInv power max_sum (innerLoop power max_sum a (a ^ power) (rangeList b0 hi) m) ∧
      ∀ p ∈ allPairs (innerLoop power max_sum a (a ^ power) (rangeList b0 hi) m),
        p.1 ≤ a := by
  intro n
  induction n with
  | zero =>
    intro b0 hi m hn hab hinv hb
    rw [rangeList_nil (by omega)]
    refine ⟨hinv, fun p hp => ?_⟩
    rcases hb p hp with h | ⟨h, _⟩ <;> omega
  | succ n ih =>
    intro b0 hi m hn hab hinv hb
    rw [rangeList_cons (by omega)]
    show _ ∧ ∀ p ∈ allPairs (innerLoop power max_sum a (a ^ power)
      (b0 :: rangeList (b0 + 1) hi) m), p.1 ≤ a
    unfold innerLoop
    by_cases hle : a ^ power + b0 ^ power ≤ max_sum
    · simp only [if_pos hle]
      apply ih (b0 + 1) hi _ (by omega) (by omega)
      · exact addPair_inv hinv ⟨ha, hab, rfl, hle⟩ hb
      · apply addPair_below
        · intro p hp
          exact pairLt_snd_mono (hb p hp) (by omega)
        · exact Or.inr ⟨rfl, by omega⟩
    · simp only [if_neg hle]
      by_cases hba : b0 = a
      · simp only [if_pos hba]
        refine ⟨hinv, fun p hp => ?_⟩
        rcases hb p hp with h | ⟨h, _⟩ <;> omega
      · simp only [if_neg hba]
        apply ih (b0 + 1) hi m (by omega) (by omega) hinv
        intro p hp
        exact pairLt_snd_mono (hb p hp) (by omega)

theorem outerLoop_inv {power max_sum max_individual : Nat} :
    ∀ n a0 m, max_individual + 1 - a0 = n → 1 ≤ a0 →
      MapInv power max_sum m → (∀ p ∈ allPairs m, p.1 < a0) →
      MapInv power max_sum
        (outerLoop power max_sum max_individual (rangeList a0 max_individual) m) := by
  intro n
  induction n with
  | zero =>
    intro a0 m hn ha0 hinv hlt
    rw [rangeList_nil (by omega)]
    exact hinv
  | succ n ih =>
    intro a0 m hn ha0 hinv hlt
    rw [rangeList_cons (by omega)]
    unfold outerLoop
    by_cases hbig : max_sum < a0 ^ power
    · simp only [if_pos hbig]
      exact hinv
    · simp only [if_neg hbig]
      have hb : Below m (a0, a0) := fun p hp => Or.inl (hlt p hp)
      obtain ⟨hinv1, hfst⟩ :=
        innerLoop_inv ha0 (max_individual + 1 - a0) a0 max_individual m rfl
          (le_refl _) hinv hb
      exact ih (a0 + 1) _ (by omega) (by omega) hinv1
        (fun p hp => by have := hfst p hp; omega)

theorem compute_inv (power max_sum : Nat) :
    MapInv power max_sum (compute_power_sums power max_sum) := by
  unfold compute_power_sums
  exact outerLoop_inv (iroot power max_sum + 1) 1 [] (by omega) (le_refl _)
    (MapInv_nil _ _) (fun p hp => by cases hp)

/-! ### Membership is monotone along the loops (pairs are only appended) -/

theorem lookupSum_addPair_mono {m : SumMap} {t s : Nat} {p q : Nat × Nat}
    (h : q ∈ lookupSum m s) : q ∈ lookupSum (addPair m t p) s := by
  by_cases hts : t = s
  · subst hts
    rw [lookupSum_addPair_self]
    exact List.mem_append.mpr (Or.inl h)
  · rwa [lookupSum_addPair_ne _ _ hts]

theorem innerLoop_mem_mono {power max_sum a a_power : Nat} :
    ∀ (bs : List Nat) (m : SumMap) (s : Nat) (q : Nat × Nat),
      q ∈ lookupSum m s →
      q ∈ lookupSum (innerLoop power max_sum a a_power bs m) s := by
  intro bs
  induction bs with
  | nil => intro m s q h; exact h
  | cons b rest ih =>
    intro m s q h
    unfold innerLoop
    by_cases h1 : a_power + b ^ power ≤ max_sum
    · simp only [if_pos h1]
      exact ih _ _ _ (lookupSum_addPair_mono h)
    · simp only [if_neg h1]
      by_cases h2 : b = a
      · simpa [h2] using h
      · simp only [if_neg h2]
        exact ih _ _ _ h

theorem outerLoop_mem_mono {power max_sum max_individual : Nat} :
    ∀ (as : List Nat) (m : SumMap) (s : Nat) (q : Nat × Nat),
      q ∈ lookupSum m s →
      q ∈ lookupSum (outerLoop power max_sum max_individual as m) s := by
  intro as
  induction as with
  | nil => intro m s q h; exact h
  | cons a rest ih =>
    intro m s q h
    unfold outerLoop
    by_cases h1 : max_sum < a ^ power
    · simpa [h1] using h
    · simp only [if_neg h1]
      exact ih _ _ _ (innerLoop_mem_mono _ _ _ _ h)

/-! ### Exhaustiveness: every qualifying pair is found -/

theorem innerLoop_exhaust {power max_sum a b hi : Nat} (ha : 1 ≤ a)
    (hab : a ≤ b) (hbhi : b ≤ hi)
    (hsum : a ^ power + b ^ power ≤ max_sum) :
    ∀ n b0 m, hi + 1 - b0 = n → a ≤ b0 → b0 ≤ b →
      (a, b) ∈ lookupSum
        (innerLoop power max_sum a (a ^ power) (rangeList b0 hi) m)
        (a ^ power + b ^ power) := by
  intro n
  induction n with
  | zero => intro b0 m hn hab0 hb0b; omega
  | succ n ih =>
    intro b0 m hn hab0 hb0b
    rw [rangeList_cons (by omega)]
    unfold innerLoop
    by_cases hb0 : b0 = b
    · subst hb0
      simp only [if_pos hsum]
      apply innerLoop_mem_mono
      rw [lookupSum_addPair_self]
      exact List.mem_append.mpr (Or.inr (List.mem_singleton.mpr rfl))
    · have hlt : b0 < b := by omega
      by_cases h1 : a ^ power + b0 ^ power ≤ max_sum
      · simp only [if_pos h1]
        exact ih (b0 + 1) _ (by omega) (by omega) (by omega)
      · have hb0a : b0 ≠ a := by
          intro he
          rw [he] at h1
          have : a ^ power ≤ b ^ power := Nat.pow_le_pow_left hab power
          omega
        simp only [if_neg h1, if_neg hb0a]
        exact ih (b0 + 1) _ (by omega) (by omega) (by omega)

theorem outerLoop_exhaust {power max_sum max_individual a b : Nat}
    (ha : 1 ≤ a) (hab : a ≤ b) (hbhi : b ≤ max_individual)
    (hsum : a ^ power + b ^ power ≤ max_sum) :
    ∀ n a0 m, max_individual + 1 - a0 = n → 1 ≤ a0 → a0 ≤ a →
      (a, b) ∈ lookupSum
        (outerLoop power max_sum max_individual (rangeList a0 max_individual) m)
        (a ^ power + b ^ power) := by
  intro n
  induction n with
  | zero => intro a0 m hn h1 h2; omega
  | succ n ih =>
    intro a0 m hn h1 h2
    rw [rangeList_cons (by omega)]
    unfold outerLoop
    have hbpow : 1 ≤ b ^ power := Nat.one_le_pow _ _ (by omega)
    have hapow : a0 ^ power ≤ a ^ power := Nat.pow_le_pow_left h2 power
    have hnb : ¬ max_sum < a0 ^ power := by omega
    simp only [if_neg hnb]
    by_cases h3 : a0 = a
    · subst h3
      apply outerLoop_mem_mono
      exact innerLoop_exhaust ha hab hbhi hsum _ a0 m rfl (le_refl _) hab
    · exact ih (a0 + 1) _ (by omega) (by omega) (by omega)

theorem compute_exhaust {power max_sum a b : Nat} (hp : 1 ≤ power)
    (ha : 1 ≤ a) (hab : a ≤ b) (hsum : a ^ power + b ^ power ≤ max_sum) :
    (a, b) ∈ lookupSum (compute_power_sums power max_sum)
      (a ^ power + b ^ power) := by
  unfold compute_power_sums
  have hbpow : b ^ power ≤ max_sum := by
    have : 1 ≤ a ^ power := Nat.one_le_pow _ _ (by omega)
    omega
  have hb : b ≤ iroot power max_sum := le_iroot (by omega) hbpow
  exact outerLoop_exhaust ha hab (by omega) hsum (iroot power max_sum + 1) 1 []
    (by omega) (le_refl _) ha

theorem lookupSum_subset_allPairs :
    ∀ (m : SumMap) (s : Nat) (q : Nat × Nat), q ∈ lookupSum m s → q ∈ allPairs m := by
  intro m
  induction m with
  | nil => intro s q h; cases h
  | cons e rest ih =>
    intro s q h
    obtain ⟨k, ps⟩ := e
    unfold lookupSum at h
    unfold allPairs
    simp only [List.flatMap_cons]
    by_cases hk : k = s
    · rw [if_pos hk] at h
      exact List.mem_append.mpr (Or.inl h)
    · rw [if_neg hk] at h
      exact List.mem_append.mpr (Or.inr (ih s q h))

theorem mem_allPairs_elim {m : SumMap} {p : Nat × Nat} (h : p ∈ allPairs m) :
    ∃ k ps, (k, ps) ∈ m ∧ p ∈ ps := by
  unfold allPairs at h
  rcases List.mem_flatMap.mp h with ⟨⟨k, ps⟩, hk, hp⟩
  exact ⟨k, ps, hk, hp⟩

theorem mem_bruteForce {power max_sum : Nat} {p : Nat × Nat} :
    p ∈ bruteForce power max_sum ↔
      1 ≤ p.1 ∧ p.1 ≤ p.2 ∧ p.2 ≤ max_sum ∧
        p.1 ^ power + p.2 ^ power ≤ max_sum := by
  obtain ⟨a, b⟩ := p
  unfold bruteForce
  simp only [List.mem_flatMap, List.mem_map, List.mem_filter, mem_rangeList,
    decide_eq_true_eq]
  constructor
  · rintro ⟨a1, ⟨ha1, ha2⟩, b1, ⟨⟨hb1, hb2⟩, hb3⟩, he⟩
    injection he with he1 he2
    subst he1; subst he2
    exact ⟨ha1, hb1, hb2, hb3⟩
  · rintro ⟨h1, h2, h3, h4⟩
    exact ⟨a, ⟨h1, by omega⟩, b, ⟨⟨h2, h3⟩, h4⟩, rfl⟩

theorem allPairs_eq_bruteForce {power max_sum : Nat} (hp : 1 ≤ power) :
    ∀ p : Nat × Nat,
      p ∈ allPairs (compute_power_sums power max_sum) ↔
        p ∈ bruteForce power max_sum := by
  intro p
  rw [mem_bruteForce]
  constructor
  · intro h
    rcases mem_allPairs_elim h with ⟨k, ps, hk, hps⟩
    obtain ⟨_, hsound, _⟩ := compute_inv power max_sum
    obtain ⟨h1, h2, h3, h4⟩ := hsound _ _ hk p hps
    refine ⟨h1, h2, ?_, by omega⟩
    have hle : p.2 ≤ p.2 ^ power := Nat.le_self_pow (by omega) _
    omega
  · rintro ⟨h1, h2, h3, h4⟩
    have := compute_exhaust hp h1 h2 h4
    have hp2 : ((p.1, p.2) : Nat × Nat) = p := rfl
    rw [hp2] at this
    exact lookupSum_subset_allPairs _ _ _ this

/-! ### The conservative pruning equals the optimized pruning (claim C4) -/

theorem innerLoop_nop {power max_sum a a_power : Nat} :
    ∀ (bs : List Nat) (m : SumMap),
      (∀ b ∈ bs, max_sum < a_power + b ^ power ∧ b ≠ a) →
      innerLoop power max_sum a a_power bs m = m := by
  intro bs
  induction bs with
  | nil => intro m _; rfl
  | cons b rest ih =>
    intro m h
    obtain ⟨h1, h2⟩ := h b (List.mem_cons_self _ _)
    unfold innerLoop
    simp only [if_neg (by omega : ¬ a_power + b ^ power ≤ max_sum), if_neg h2]
    exact ih m (fun x hx => h x (List.mem_cons_of_mem _ hx))

theorem innerLoop_eq_opt {power max_sum a : Nat} :
    ∀ n b0 hi m, hi + 1 - b0 = n → a ≤ b0 →
      innerLoop power max_sum a (a ^ power) (rangeList b0 hi) m =
        innerLoopOpt power max_sum a (a ^ power) (rangeList b0 hi) m := by
  intro n
  induction n with
  | zero =>
    intro b0 hi m hn hab
    rw [rangeList_nil (by omega)]
    rfl
  | succ n ih =>
    intro b0 hi m hn hab
    rw [rangeList_cons (by omega)]
    show innerLoop power max_sum a (a ^ power) (b0 :: rangeList (b0 + 1) hi) m =
      innerLoopOpt power max_sum a (a ^ power) (b0 :: rangeList (b0 + 1) hi) m
    unfold innerLoop innerLoopOpt
    by_cases h1 : a ^ power + b0 ^ power ≤ max_sum
    · simp only [if_pos h1]
      exact ih (b0 + 1) hi _ (by omega) (by omega)
    · simp only [if_neg h1]
      by_cases h2 : b0 = a
      · simp only [if_pos h2]
      · simp only [if_neg h2]
        apply innerLoop_nop
        intro b hb
        rcases mem_rangeList.mp hb with ⟨hb1, _⟩
        have : b0 ^ power ≤ b ^ power := Nat.pow_le_pow_left (by omega) power
        exact ⟨by omega, by omega⟩

theorem outerLoop_eq_opt {power max_sum max_individual : Nat} :
    ∀ (as : List Nat) (m : SumMap),
      outerLoop power max_sum max_individual as m =
        outerLoopOpt power max_sum max_individual as m := by
  intro as
  induction as with
  | nil => intro m; rfl
  | cons a rest ih =>
    intro m
    unfold outerLoop outerLoopOpt
    by_cases h1 : max_sum < a ^ power
    · simp only [if_pos h1]
    · simp only [if_neg h1]
      rw [innerLoop_eq_opt (max_individual + 1 - a) a max_individual m rfl (le_refl _)]
      exact ih _

theorem compute_eq_opt (power max_sum : Nat) :
    compute_power_sums power max_sum = compute_power_sums_opt power max_sum := by
  unfold compute_power_sums compute_power_sums_opt
  exact outerLoop_eq_opt _ _

/-! ### Claim theorems about the enumerator -/

/-- C1: Soundness of the enumerator. For every `power ≥ 1` and positive
`max_sum`, every pair `(a, b)` stored in the mapping returned by
`compute_power_sums` satisfies `a ≤ b`, `a^power + b^power` equals the key
of its group, that key is at most `max_sum`, and no pair occurs twice —
neither within one group (`ps.Nodup`) nor across groups. -/
theorem C1_enumerator_sound {power max_sum : Nat} (hp : 1 ≤ power)
    (hm : 1 ≤ max_sum) :
    ∀ k ps, (k, ps) ∈ compute_power_sums power max_sum →
      (∀ p ∈ ps, p.1 ≤ p.2 ∧ p.1 ^ power + p.2 ^ power = k ∧ k ≤ max_sum) ∧
      ps.Nodup ∧
      (∀ k2 ps2, (k2, ps2) ∈ compute_power_sums power max_sum → k2 ≠ k →
        ∀ p ∈ ps, p ∉ ps2) := by
  intro k ps hk
  obtain ⟨_, hsound, hord⟩ := compute_inv power max_sum
  refine ⟨?_, ?_, ?_⟩
  · intro p hp2
    obtain ⟨_, h2, h3, h4⟩ := hsound _ _ hk p hp2
    exact ⟨h2, h3, h4⟩
  · exact (hord _ _ hk).imp (fun h => pairLt_ne h)
  · intro k2 ps2 hk2 hne p hp1 hp2
    obtain ⟨_, _, h3, _⟩ := hsound _ _ hk p hp1
    obtain ⟨_, _, h3a, _⟩ := hsound _ _ hk2 p hp2
    exact hne (h3a ▸ h3)

theorem C1_enumerator_sound_witness :
    List.Nodup [((1 : Nat), (7 : Nat)), (5, 5)] :=
  (@C1_enumerator_sound 2 50 (by decide) (by decide) 50 [(1, 7), (5, 5)]
    (by decide)).2.1

/-- C2: Exhaustiveness of the enumerator. With the iteration bound
`max_individual = ⌊max_sum^(1/power)⌋ + 1`, every pair of positive
integers `(a, b)` with `a ≤ b` and `a^power + b^power ≤ max_sum` appears
in the mapping. In particular, for `power = 2`, `max_sum = 50` the group
for sum 50 contains `(1, 7)` and `(5, 5)`, and the set of produced pairs
matches a brute-force scan of all `1 ≤ a ≤ b ≤ max_sum`. -/
theorem C2_enumerator_exhaustive :
    (∀ power max_sum a b : Nat, 1 ≤ power → 1 ≤ max_sum → 1 ≤ a → a ≤ b →
      a ^ power + b ^ power ≤ max_sum →
      (a, b) ∈ lookupSum (compute_power_sums power max_sum)
        (a ^ power + b ^ power)) ∧
    (1, 7) ∈ lookupSum (compute_power_sums 2 50) 50 ∧
    (5, 5) ∈ lookupSum (compute_power_sums 2 50) 50 ∧
    (∀ p : Nat × Nat,
      p ∈ allPairs (compute_power_sums 2 50) ↔ p ∈ bruteForce 2 50) := by
  refine ⟨?_, by decide, by decide, allPairs_eq_bruteForce (by decide)⟩
  intro power max_sum a b hp _hm ha hab hsum
  exact compute_exhaust hp ha hab hsum

theorem C2_enumerator_exhaustive_witness :
    (1, 1) ∈ lookupSum (compute_power_sums 1 2) (1 ^ 1 + 1 ^ 1) :=
  C2_enumerator_exhaustive.1 1 2 1 1 (by decide) (by decide) (by decide)
    (by decide) (by decide)

/-- C4: Refinement equivalence of pruning. The optimized enumerator that
breaks the inner `b`-loop at the first overflow returns exactly the same
mapping as the implemented conservative enumerator, for every `power ≥ 1`
and positive `max_sum`. -/
theorem C4_pruning_refinement {power max_sum : Nat} (hp : 1 ≤ power)
    (hm : 1 ≤ max_sum) :
    compute_power_sums_opt power max_sum = compute_power_sums power max_sum :=
  (compute_eq_opt power max_sum).symm

theorem C4_pruning_refinement_witness :
    compute_power_sums_opt 2 50 = compute_power_sums 2 50 :=
  C4_pruning_refinement (by decide) (by decide)

/-- C8: Within-group ordering invariant. For every `power ≥ 1` and positive
`max_sum`, the pairs stored in each group are strictly increasing in the
lexicographic discovery order (`a` ascending, then `b` ascending for equal
`a`), and two runs of the enumerator on identical inputs produce identical
mappings (the enumerator is a pure function, so the second run is literally
the same value). -/
theorem C8_group_order {power max_sum : Nat} (hp : 1 ≤ power)
    (hm : 1 ≤ max_sum) :
    (∀ k ps, (k, ps) ∈ compute_power_sums power max_sum →
      ps.Pairwise pairLt) ∧
    compute_power_sums power max_sum = compute_power_sums power max_sum := by
  obtain ⟨_, _, hord⟩ := compute_inv power max_sum
  exact ⟨fun k ps hk => hord _ _ hk, rfl⟩

theorem C8_group_order_witness :
    List.Pairwise pairLt [((1 : Nat), (7 : Nat)), (5, 5)] :=
  (@C8_group_order 2 50 (by decide) (by decide)).1
    50 [(1, 7), (5, 5)] (by decide)

/-! ### Trace structure of the traced run -/

theorem mem_evCurrents {c : Nat} {l : List RunEvent} :
    c ∈ evCurrents l ↔ ∃ t, RunEvent.progress c t ∈ l := by
  unfold evCurrents
  rw [List.mem_filterMap]
  constructor
  · rintro ⟨ev, hev, hc⟩
    cases ev with
    | progress c2 t =>
      simp only [Option.some.injEq] at hc
      exact ⟨t, hc ▸ hev⟩
    | finished r => cases hc
  · rintro ⟨t, ht⟩
    exact ⟨RunEvent.progress c t, ht, rfl⟩

theorem evCurrents_append (l1 l2 : List RunEvent) :
    evCurrents (l1 ++ l2) = evCurrents l1 ++ evCurrents l2 :=
  List.filterMap_append _ _ _

theorem bumpProgress_spec (total : Nat) (s : RunState) :
    ∃ l0, (bumpProgress total s).evs = s.evs ++ l0 ∧
      (bumpProgress total s).current_pair = s.current_pair + 1 ∧
      (bumpProgress total s).flag = s.flag ∧
      l0.length ≤ 1 ∧
      ∀ ev ∈ l0, ev = RunEvent.progress (s.current_pair + 1) total ∧
        (s.current_pair + 1) % 1000 = 0 := by
  unfold bumpProgress
  by_cases h : (s.current_pair + 1) % 1000 = 0
  · refine ⟨[RunEvent.progress (s.current_pair + 1) total], ?_, ?_, ?_, ?_, ?_⟩
    · simp [if_pos h]
    · simp [if_pos h]
    · simp [if_pos h]
    · simp
    · intro ev hev
      rw [List.mem_singleton.mp hev]
      exact ⟨rfl, h⟩
  · refine ⟨[], ?_, ?_, ?_, ?_, ?_⟩
    · simp [if_neg h]
    · simp [if_neg h]
    · simp [if_neg h]
    · simp
    · intro ev hev
      cases hev

theorem evCurrents_short {l : List RunEvent} (h : l.length ≤ 1) :
    List.Pairwise (fun x y : Nat => x < y) (evCurrents l) := by
  cases l with
  | nil => simp [evCurrents]
  | cons x xs =>
    cases xs with
    | nil => cases x <;> simp [evCurrents]
    | cons y ys => simp at h


theorem runInner_after_bump {power max_sum a a_power total : Nat}
    {ext : Nat → Bool} {rest : List Nat} {s s1 : RunState}
    (hevs : s1.evs = s.evs) (hcur : s1.current_pair = s.current_pair)
    (IH : ∀ t : RunState,
      ∃ l, (runInner power max_sum a a_power total ext rest t).1.evs =
          t.evs ++ l ∧
        t.current_pair ≤
          (runInner power max_sum a a_power total ext rest t).1.current_pair ∧
        (runInner power max_sum a a_power total ext rest t).1.current_pair ≤
          t.current_pair + rest.length ∧
        (∀ ev ∈ l, ∃ c, ev = RunEvent.progress c total ∧ c % 1000 = 0 ∧
          t.current_pair < c ∧
          c ≤ (runInner power max_sum a a_power total ext rest t).1.current_pair) ∧
        List.Pairwise (fun x y : Nat => x < y) (evCurrents l)) :
    ∃ l, (runInner power max_sum a a_power total ext rest
        (bumpProgress total s1)).1.evs = s.evs ++ l ∧
      s.current_pair ≤ (runInner power max_sum a a_power total ext rest
        (bumpProgress total s1)).1.current_pair ∧
      (runInner power max_sum a a_power total ext rest
        (bumpProgress total s1)).1.current_pair ≤
        s.current_pair + (rest.length + 1) ∧
      (∀ ev ∈ l, ∃ c, ev = RunEvent.progress c total ∧ c % 1000 = 0 ∧
        s.current_pair < c ∧
        c ≤ (runInner power max_sum a a_power total ext rest
          (bumpProgress total s1)).1.current_pair) ∧
      List.Pairwise (fun x y : Nat => x < y) (evCurrents l) := by
  obtain ⟨l0, hl0evs, hl0cur, _, hl0len, hl0ev⟩ := bumpProgress_spec total s1
  obtain ⟨l2, hl2evs, hl2lo, hl2hi, hl2ev, hl2pw⟩ := IH (bumpProgress total s1)
  refine ⟨l0 ++ l2, ?_, ?_, ?_, ?_, ?_⟩
  · rw [hl2evs, hl0evs, hevs, List.append_assoc]
  · omega
  · omega
  · intro ev hev
    rcases List.mem_append.mp hev with h1 | h1
    · obtain ⟨he, hmod⟩ := hl0ev ev h1
      exact ⟨s.current_pair + 1, by rw [he, hcur], by omega, by omega, by omega⟩
    · obtain ⟨c, he, hmod, hlo, hhi⟩ := hl2ev ev h1
      exact ⟨c, he, hmod, by omega, hhi⟩
  · rw [evCurrents_append]
    apply List.pairwise_append.mpr
    refine ⟨evCurrents_short (by
      cases l0 with
      | nil => simp [evCurrents]
      | cons x xs =>
        cases xs with
        | nil => simp [evCurrents]
        | cons y ys => simp at hl0len), hl2pw, ?_⟩
    · intro x hx y hy
      rcases mem_evCurrents.mp hx with ⟨t1, ht1⟩
      rcases mem_evCurrents.mp hy with ⟨t2, ht2⟩
      obtain ⟨he1, _⟩ := hl0ev _ ht1
      obtain ⟨c, he2, _, hlo2, _⟩ := hl2ev _ ht2
      injection he1 with he1a he1b
      injection he2 with he2a he2b
      omega

theorem runInner_spec {power max_sum a a_power total : Nat} {ext : Nat → Bool} :
    ∀ (bs : List Nat) (s : RunState),
      ∃ l, (runInner power max_sum a a_power total ext bs s).1.evs = s.evs ++ l ∧
        s.current_pair ≤
          (runInner power max_sum a a_power total ext bs s).1.current_pair ∧
        (runInner power max_sum a a_power total ext bs s).1.current_pair ≤
          s.current_pair + bs.length ∧
        (∀ ev ∈ l, ∃ c, ev = RunEvent.progress c total ∧ c % 1000 = 0 ∧
          s.current_pair < c ∧
          c ≤ (runInner power max_sum a a_power total ext bs s).1.current_pair) ∧
        List.Pairwise (fun x y : Nat => x < y) (evCurrents l) := by
  intro bs
  induction bs with
  | nil =>
    intro s
    exact ⟨[], by simp [runInner, evCurrents]⟩
  | cons b rest ih =>
    intro s
    by_cases hst : (s.flag || ext s.ck) = true
    · refine ⟨[], ?_⟩
      simp only [runInner, checkStop, hst, if_pos]
      simp [evCurrents]
    · have hst2 : (s.flag || ext s.ck) = false := by
        revert hst; cases (s.flag || ext s.ck) <;> simp
      by_cases hle : a_power + b ^ power ≤ max_sum
      · have hrun : runInner power max_sum a a_power total ext (b :: rest) s =
            runInner power max_sum a a_power total ext rest
              (bumpProgress total
                { flag := false, ck := s.ck + 1,
                  current_pair := s.current_pair,
                  m := addPair s.m (a_power + b ^ power) (a, b),
                  evs := s.evs }) := by
          simp [runInner, checkStop, hst2, hle]
        rw [hrun, List.length_cons]
        exact runInner_after_bump rfl rfl ih
      · by_cases hba : b = a
        · subst hba
          refine ⟨[], ?_⟩
          simp only [runInner, checkStop, hst2]
          simp [hle, evCurrents]
        · have hrun : runInner power max_sum a a_power total ext (b :: rest) s =
              runInner power max_sum a a_power total ext rest
                (bumpProgress total
                  { flag := false, ck := s.ck + 1,
                    current_pair := s.current_pair,
                    m := s.m, evs := s.evs }) := by
            simp [runInner, checkStop, hst2, hle, hba]
          rw [hrun, List.length_cons]
          exact runInner_after_bump rfl rfl ih

theorem runOuter_spec {power max_sum max_individual total : Nat}
    {ext : Nat → Bool} :
    ∀ (as : List Nat) (s : RunState),
      ∃ l, (runOuter power max_sum max_individual total ext as s).1.evs =
          s.evs ++ l ∧
        s.current_pair ≤
          (runOuter power max_sum max_individual total ext as s).1.current_pair ∧
        (runOuter power max_sum max_individual total ext as s).1.current_pair ≤
          s.current_pair +
            (as.map (fun a => (rangeList a max_individual).length)).sum ∧
        (∀ ev ∈ l, ∃ c, ev = RunEvent.progress c total ∧ c % 1000 = 0 ∧
          s.current_pair < c ∧
          c ≤ (runOuter power max_sum max_individual total ext as s).1.current_pair) ∧
        List.Pairwise (fun x y : Nat => x < y) (evCurrents l) := by
  intro as
  induction as with
  | nil =>
    intro s
    exact ⟨[], by simp [runOuter, evCurrents]⟩
  | cons a rest ih =>
    intro s
    by_cases hst : (s.flag || ext s.ck) = true
    · refine ⟨[], ?_⟩
      simp only [runOuter, checkStop, hst, if_pos]
      simp [evCurrents]
    · have hst2 : (s.flag || ext s.ck) = false := by
        revert hst; cases (s.flag || ext s.ck) <;> simp
      by_cases hbig : max_sum < a ^ power
      · refine ⟨[], ?_⟩
        simp only [runOuter, checkStop, hst2]
        simp [hbig, evCurrents]
      · have hrun : runOuter power max_sum max_individual total ext (a :: rest) s =
            (if (runInner power max_sum a (a ^ power) total ext
                  (rangeList a max_individual)
                  { flag := false, ck := s.ck + 1,
                    current_pair := s.current_pair, m := s.m,
                    evs := s.evs }).2 = true then
              ((runInner power max_sum a (a ^ power) total ext
                (rangeList a max_individual)
                { flag := false, ck := s.ck + 1,
                  current_pair := s.current_pair, m := s.m,
                  evs := s.evs }).1, true)
            else
              runOuter power max_sum max_individual total ext rest
                (runInner power max_sum a (a ^ power) total ext
                  (rangeList a max_individual)
                  { flag := false, ck := s.ck + 1,
                    current_pair := s.current_pair, m := s.m,
                    evs := s.evs }).1) := by
          simp [runOuter, checkStop, hst2, hbig]
        obtain ⟨l1, hl1evs, hl1lo, hl1hi, hl1ev, hl1pw⟩ :=
          runInner_spec (rangeList a max_individual)
            { flag := false, ck := s.ck + 1, current_pair := s.current_pair,
              m := s.m, evs := s.evs }
        have hc : (RunState.mk false (s.ck + 1) s.current_pair s.m
            s.evs).current_pair = s.current_pair := rfl
        rw [hrun]
        by_cases hr : (runInner power max_sum a (a ^ power) total ext
            (rangeList a max_individual)
            { flag := false, ck := s.ck + 1, current_pair := s.current_pair,
              m := s.m, evs := s.evs }).2 = true
        · rw [if_pos hr]
          refine ⟨l1, hl1evs, ?_, ?_, ?_, hl1pw⟩
          · exact hl1lo
          · simp only [List.map_cons, List.sum_cons]
            omega
          · intro ev hev
            obtain ⟨c, he, hmod, hlo, hhi⟩ := hl1ev ev hev
            exact ⟨c, he, hmod, hlo, hhi⟩
        · rw [if_neg hr]
          obtain ⟨l2, hl2evs, hl2lo, hl2hi, hl2ev, hl2pw⟩ :=
            ih (runInner power max_sum a (a ^ power) total ext
              (rangeList a max_individual)
              { flag := false, ck := s.ck + 1, current_pair := s.current_pair,
                m := s.m, evs := s.evs }).1
          refine ⟨l1 ++ l2, ?_, ?_, ?_, ?_, ?_⟩
          · rw [hl2evs, hl1evs, List.append_assoc]
          · omega
          · simp only [List.map_cons, List.sum_cons]
            omega
          · intro ev hev
            rcases List.mem_append.mp hev with h1 | h1
            · obtain ⟨c, he, hmod, hlo, hhi⟩ := hl1ev ev h1
              exact ⟨c, he, hmod, hlo, by omega⟩
            · obtain ⟨c, he, hmod, hlo, hhi⟩ := hl2ev ev h1
              exact ⟨c, he, hmod, by omega, hhi⟩
          · rw [evCurrents_append]
            apply List.pairwise_append.mpr
            refine ⟨hl1pw, hl2pw, ?_⟩
            intro x hx y hy
            rcases mem_evCurrents.mp hx with ⟨t1, ht1⟩
            rcases mem_evCurrents.mp hy with ⟨t2, ht2⟩
            obtain ⟨c1, he1, _, _, hhi1⟩ := hl1ev _ ht1
            obtain ⟨c2, he2, _, hlo2, _⟩ := hl2ev _ ht2
            injection he1 with he1a he1b
            injection he2 with he2a he2b
            omega

theorem length_rangeList (lo hi : Nat) :
    (rangeList lo hi).length = hi + 1 - lo := by
  simp [rangeList]

theorem sum_inner_lengths :
    ∀ n lo hi, hi + 1 - lo = n →
      2 * ((rangeList lo hi).map (fun a => (rangeList a hi).length)).sum =
        n * (n + 1) := by
  intro n
  induction n with
  | zero =>
    intro lo hi hn
    rw [rangeList_nil (by omega)]
    simp
  | succ n ih =>
    intro lo hi hn
    rw [rangeList_cons (by omega)]
    simp only [List.map_cons, List.sum_cons]
    have h2 := ih (lo + 1) hi (by omega)
    simp only [length_rangeList] at h2 ⊢
    have he : (n + 1) * (n + 1 + 1) = n * (n + 1) + 2 * (n + 1) := by ring
    omega

theorem compute_run_spec (e : EngineState) (power max_sum : Nat)
    (ext : Nat → Bool) :
    ∃ l,
      (∀ ev ∈ l, ∃ c, ev = RunEvent.progress c
          ((iroot power max_sum + 1) * (iroot power max_sum + 1 + 1) / 2) ∧
        c % 1000 = 0 ∧ 0 < c ∧
        c ≤ (iroot power max_sum + 1) * (iroot power max_sum + 1 + 1) / 2) ∧
      List.Pairwise (fun x y : Nat => x < y) (evCurrents l) ∧
      (((compute_power_sums_run e power max_sum ext).1 = l ∧
        (compute_power_sums_run e power max_sum ext).2 = Outcome.cancelled) ∨
       (∃ r, (compute_power_sums_run e power max_sum ext).1 =
          l ++ [RunEvent.finished r] ∧
        (compute_power_sums_run e power max_sum ext).2 =
          Outcome.completed r)) := by
  obtain ⟨l, hevs, hlo, hhi, hev, hpw⟩ :=
    @runOuter_spec power max_sum (iroot power max_sum + 1)
      ((iroot power max_sum + 1) * (iroot power max_sum + 1 + 1) / 2)
      ext (rangeList 1 (iroot power max_sum + 1))
      (RunState.mk false 0 0 [] [])
  have hsum : 2 * ((rangeList 1 (iroot power max_sum + 1)).map
      (fun a => (rangeList a (iroot power max_sum + 1)).length)).sum =
      (iroot power max_sum + 1) * (iroot power max_sum + 1 + 1) :=
    sum_inner_lengths (iroot power max_sum + 1) 1 (iroot power max_sum + 1)
      (by omega)
  have hcur0 : (RunState.mk false 0 0 [] []).current_pair = 0 := rfl
  have hevs0 : (RunState.mk false 0 0 [] []).evs = [] := rfl
  rw [hevs0, List.nil_append] at hevs
  refine ⟨l, ?_, hpw, ?_⟩
  · intro ev he
    obtain ⟨c, hc1, hc2, hc3, hc4⟩ := hev ev he
    exact ⟨c, hc1, hc2, by omega, by omega⟩
  · by_cases hr2 : (runOuter power max_sum (iroot power max_sum + 1)
        ((iroot power max_sum + 1) * (iroot power max_sum + 1 + 1) / 2) ext
        (rangeList 1 (iroot power max_sum + 1))
        (RunState.mk false 0 0 [] [])).2 = true
    · left
      have hsplit : compute_power_sums_run e power max_sum ext =
          ((runOuter power max_sum (iroot power max_sum + 1)
            ((iroot power max_sum + 1) * (iroot power max_sum + 1 + 1) / 2) ext
            (rangeList 1 (iroot power max_sum + 1))
            (RunState.mk false 0 0 [] [])).1.evs, Outcome.cancelled) := by
        simp [compute_power_sums_run, resetEngine, hr2]
      rw [hsplit]
      exact ⟨hevs, rfl⟩
    · have hsplit : compute_power_sums_run e power max_sum ext =
          ((runOuter power max_sum (iroot power max_sum + 1)
            ((iroot power max_sum + 1) * (iroot power max_sum + 1 + 1) / 2) ext
            (rangeList 1 (iroot power max_sum + 1))
            (RunState.mk false 0 0 [] [])).1.evs ++
              [RunEvent.finished ⟨power, max_sum,
                (runOuter power max_sum (iroot power max_sum + 1)
                  ((iroot power max_sum + 1) *
                    (iroot power max_sum + 1 + 1) / 2) ext
                  (rangeList 1 (iroot power max_sum + 1))
                  (RunState.mk false 0 0 [] [])).1.m⟩],
            Outcome.completed ⟨power, max_sum,
              (runOuter power max_sum (iroot power max_sum + 1)
                ((iroot power max_sum + 1) *
                  (iroot power max_sum + 1 + 1) / 2) ext
                (rangeList 1 (iroot power max_sum + 1))
                (RunState.mk false 0 0 [] [])).1.m⟩) := by
        simp [compute_power_sums_run, resetEngine, hr2]
      right
      rw [hsplit, hevs]
      exact ⟨_, rfl, rfl⟩

theorem bumpProgress_flag (total : Nat) (s : RunState) :
    (bumpProgress total s).flag = s.flag := by
  unfold bumpProgress
  by_cases h : (s.current_pair + 1) % 1000 = 0
  · simp [h]
  · simp [h]

theorem runInner_no_stop {power max_sum a a_power total : Nat}
    {ext : Nat → Bool} (hext : ∀ k, ext k = false) :
    ∀ (bs : List Nat) (s : RunState), s.flag = false →
      (runInner power max_sum a a_power total ext bs s).1.flag = false ∧
      (runInner power max_sum a a_power total ext bs s).2 = false := by
  intro bs
  induction bs with
  | nil => intro s hf; exact ⟨hf, rfl⟩
  | cons b rest ih =>
    intro s hf
    have hst2 : (s.flag || ext s.ck) = false := by rw [hf, hext]; rfl
    by_cases hle : a_power + b ^ power ≤ max_sum
    · have hrun : runInner power max_sum a a_power total ext (b :: rest) s =
          runInner power max_sum a a_power total ext rest
            (bumpProgress total
              { flag := false, ck := s.ck + 1,
                current_pair := s.current_pair,
                m := addPair s.m (a_power + b ^ power) (a, b),
                evs := s.evs }) := by
        simp [runInner, checkStop, hst2, hle]
      rw [hrun]
      exact ih _ (by rw [bumpProgress_flag])
    · by_cases hba : b = a
      · have hle2 : ¬ a_power + a ^ power ≤ max_sum := by
          rw [← hba]; exact hle
        have hrun : runInner power max_sum a a_power total ext (b :: rest) s =
            (RunState.mk false (s.ck + 1) s.current_pair s.m s.evs, false) := by
          simp [runInner, checkStop, hst2, hba, hle2]
        rw [hrun]
        exact ⟨rfl, rfl⟩
      · have hrun : runInner power max_sum a a_power total ext (b :: rest) s =
            runInner power max_sum a a_power total ext rest
              (bumpProgress total
                { flag := false, ck := s.ck + 1,
                  current_pair := s.current_pair, m := s.m,
                  evs := s.evs }) := by
          simp [runInner, checkStop, hst2, hle, hba]
        rw [hrun]
        exact ih _ (by rw [bumpProgress_flag])

theorem runOuter_no_stop {power max_sum max_individual total : Nat}
    {ext : Nat → Bool} (hext : ∀ k, ext k = false) :
    ∀ (as : List Nat) (s : RunState), s.flag = false →
      (runOuter power max_sum max_individual total ext as s).1.flag = false ∧
      (runOuter power max_sum max_individual total ext as s).2 = false := by
  intro as
  induction as with
  | nil => intro s hf; exact ⟨hf, rfl⟩
  | cons a rest ih =>
    intro s hf
    have hst2 : (s.flag || ext s.ck) = false := by rw [hf, hext]; rfl
    by_cases hbig : max_sum < a ^ power
    · have hrun : runOuter power max_sum max_individual total ext (a :: rest) s =
          (RunState.mk false (s.ck + 1) s.current_pair s.m s.evs, false) := by
        simp [runOuter, checkStop, hst2, hbig]
      rw [hrun]
      exact ⟨rfl, rfl⟩
    · obtain ⟨hif, hib⟩ := @runInner_no_stop power max_sum a (a ^ power)
        total ext hext (rangeList a max_individual)
        (RunState.mk false (s.ck + 1) s.current_pair s.m s.evs) rfl
      have hrun : runOuter power max_sum max_individual total ext (a :: rest) s =
          runOuter power max_sum max_individual total ext rest
            (runInner power max_sum a (a ^ power) total ext
              (rangeList a max_individual)
              (RunState.mk false (s.ck + 1) s.current_pair s.m s.evs)).1 := by
        simp [runOuter, checkStop, hst2, hbig, hib]
      rw [hrun]
      exact ih _ hif

theorem compute_run_completes (e : EngineState) (power max_sum : Nat) :
    ∃ r, (compute_power_sums_run e power max_sum (fun _ => false)).2 =
      Outcome.completed r := by
  obtain ⟨_, hb⟩ := @runOuter_no_stop power max_sum (iroot power max_sum + 1)
    ((iroot power max_sum + 1) * (iroot power max_sum + 1 + 1) / 2)
    (fun _ => false) (fun _ => rfl)
    (rangeList 1 (iroot power max_sum + 1)) (RunState.mk false 0 0 [] []) rfl
  refine ⟨⟨power, max_sum, (runOuter power max_sum (iroot power max_sum + 1)
    ((iroot power max_sum + 1) * (iroot power max_sum + 1 + 1) / 2)
    (fun _ => false) (rangeList 1 (iroot power max_sum + 1))
    (RunState.mk false 0 0 [] [])).1.m⟩, ?_⟩
  simp [compute_power_sums_run, resetEngine, hb]

theorem countFinished_progress_only {l : List RunEvent}
    (h : ∀ ev ∈ l, isProgressEv ev = true) : countFinished l = 0 := by
  unfold countFinished
  rw [List.filter_eq_nil_iff.mpr, List.length_nil]
  intro ev hev
  rw [h ev hev]
  decide

theorem progress_ev_of_spec {l : List RunEvent} {T : Nat}
    (h : ∀ ev ∈ l, ∃ c, ev = RunEvent.progress c T ∧ c % 1000 = 0 ∧
      0 < c ∧ c ≤ T) :
    ∀ ev ∈ l, isProgressEv ev = true := by
  intro ev hev
  obtain ⟨c, rfl, _⟩ := h ev hev
  rfl

/-- C3: Terminal-event protocol. Every invocation of the traced
`compute_power_sums` run delivers exactly one terminal outcome (a
completion carrying a `ComputationResult`, or a cancellation; the error
path of the `try`/`except` is unreachable in the exact-integer model),
and never more than one: the trace contains exactly one `finished` event
when the run completes and none when the stop flag was observed, in which
case no `ComputationResult` is produced. -/
theorem C3_terminal_protocol :
    ∀ (e : EngineState) (power max_sum : Nat) (ext : Nat → Bool),
      ((∃ r, (compute_power_sums_run e power max_sum ext).2 =
          Outcome.completed r) ∨
        (compute_power_sums_run e power max_sum ext).2 = Outcome.cancelled) ∧
      countFinished (compute_power_sums_run e power max_sum ext).1 =
        (match (compute_power_sums_run e power max_sum ext).2 with
          | Outcome.completed _ => 1
          | Outcome.cancelled => 0) ∧
      ((compute_power_sums_run e power max_sum ext).2 = Outcome.cancelled →
        ∀ r, RunEvent.finished r ∉
          (compute_power_sums_run e power max_sum ext).1) := by
  intro e power max_sum ext
  obtain ⟨l, hev, _hpw, hcase⟩ := compute_run_spec e power max_sum ext
  have hprog := progress_ev_of_spec hev
  rcases hcase with ⟨h1, h2⟩ | ⟨r, h1, h2⟩
  · refine ⟨Or.inr h2, ?_, ?_⟩
    · rw [h1, h2, countFinished_progress_only hprog]
    · intro _ r hr
      rw [h1] at hr
      have := hprog _ hr
      simp [isProgressEv] at this
  · refine ⟨Or.inl ⟨r, h2⟩, ?_, ?_⟩
    · rw [h1, h2]
      unfold countFinished
      rw [List.filter_append, List.length_append,
        show (List.filter (fun e => ! isProgressEv e) l).length = 0 from
          countFinished_progress_only hprog]
      rfl
    · intro hc
      rw [h2] at hc
      cases hc

theorem C3_terminal_protocol_witness :
    countFinished (compute_power_sums_run ⟨false⟩ 2 10 (fun _ => true)).1 =
      (match (compute_power_sums_run ⟨false⟩ 2 10 (fun _ => true)).2 with
        | Outcome.completed _ => 1
        | Outcome.cancelled => 0) :=
  (C3_terminal_protocol ⟨false⟩ 2 10 (fun _ => true)).2.1

/-- C6: Progress reporting. Every progress event of a traced run carries
the pair `(pairs_examined, total_pairs_estimate)` where the estimate is
`max_individual * (max_individual + 1) / 2` computed once at start; each
emitted `pairs_examined` is a positive multiple of 1000 and at most the
estimate; the `pairs_examined` values are non-decreasing across the trace;
and the terminal `finished` event, when present, is the last event
delivered. -/
theorem C6_progress_reporting :
    ∀ (e : EngineState) (power max_sum : Nat) (ext : Nat → Bool),
      (∀ c t, RunEvent.progress c t ∈
          (compute_power_sums_run e power max_sum ext).1 →
        t = (iroot power max_sum + 1) * (iroot power max_sum + 1 + 1) / 2 ∧
        c % 1000 = 0 ∧ 0 < c ∧
        c ≤ (iroot power max_sum + 1) * (iroot power max_sum + 1 + 1) / 2) ∧
      List.Pairwise (fun x y : Nat => x ≤ y)
        (evCurrents (compute_power_sums_run e power max_sum ext).1) ∧
      (∀ r, (compute_power_sums_run e power max_sum ext).2 =
          Outcome.completed r →
        ∃ l, (compute_power_sums_run e power max_sum ext).1 =
            l ++ [RunEvent.finished r] ∧
          ∀ ev ∈ l, isProgressEv ev = true) := by
  intro e power max_sum ext
  obtain ⟨l, hev, hpw, hcase⟩ := compute_run_spec e power max_sum ext
  have hprog := progress_ev_of_spec hev
  have hmem : ∀ c t, RunEvent.progress c t ∈ l →
      t = (iroot power max_sum + 1) * (iroot power max_sum + 1 + 1) / 2 ∧
      c % 1000 = 0 ∧ 0 < c ∧
      c ≤ (iroot power max_sum + 1) * (iroot power max_sum + 1 + 1) / 2 := by
    intro c t hct
    obtain ⟨c2, he, hmod, hpos, hle⟩ := hev _ hct
    injection he with he1 he2
    subst he1; subst he2
    exact ⟨rfl, hmod, hpos, hle⟩
  have hple : List.Pairwise (fun x y : Nat => x ≤ y) (evCurrents l) :=
    hpw.imp (fun h => Nat.le_of_lt h)
  rcases hcase with ⟨h1, h2⟩ | ⟨r, h1, h2⟩
  · refine ⟨?_, ?_, ?_⟩
    · intro c t hct
      rw [h1] at hct
      exact hmem c t hct
    · rw [h1]
      exact hple
    · intro r hr
      rw [h2] at hr
      cases hr
  · refine ⟨?_, ?_, ?_⟩
    · intro c t hct
      rw [h1] at hct
      rcases List.mem_append.mp hct with h3 | h3
      · exact hmem c t h3
      · cases List.mem_singleton.mp h3
    · rw [h1, evCurrents_append]
      have : evCurrents [RunEvent.finished r] = [] := rfl
      rw [this, List.append_nil]
      exact hple
    · intro r2 hr2
      rw [h2] at hr2
      injection hr2 with hr3
      exact ⟨l, hr3 ▸ h1, hprog⟩

theorem C6_progress_reporting_witness :
    ∃ l, (compute_power_sums_run ⟨false⟩ 2 10 (fun _ => false)).1 =
        l ++ [RunEvent.finished ⟨2, 10,
          [(2, [(1, 1)]), (5, [(1, 2)]), (10, [(1, 3)]), (8, [(2, 2)])]⟩] ∧
      ∀ ev ∈ l, isProgressEv ev = true :=
  (C6_progress_reporting ⟨false⟩ 2 10 (fun _ => false)).2.2
    ⟨2, 10, [(2, [(1, 1)]), (5, [(1, 2)]), (10, [(1, 3)]), (8, [(2, 2)])]⟩
    (by decide)

/-- C9 (implicit): `compute_power_sums` unconditionally resets the
cooperative stop flag to `False` at the start of every run (line 88),
regardless of its prior value: the traced run does not depend on the
incoming engine state at all, and a cancel request issued via
`stop_computation` before the run begins is discarded — with no further
stop requests during the run, the run still completes with a result. -/
theorem C9_stop_flag_reset :
    (∀ (e1 e2 : EngineState) (power max_sum : Nat) (ext : Nat → Bool),
      compute_power_sums_run e1 power max_sum ext =
        compute_power_sums_run e2 power max_sum ext) ∧
    (∀ (e : EngineState) (power max_sum : Nat),
      compute_power_sums_run (stop_computation e) power max_sum
          (fun _ => false) =
        compute_power_sums_run ⟨false⟩ power max_sum (fun _ => false) ∧
      ∃ r, (compute_power_sums_run (stop_computation e) power max_sum
          (fun _ => false)).2 = Outcome.completed r) := by
  constructor
  · intro e1 e2 power max_sum ext
    rfl
  · intro e power max_sum
    exact ⟨rfl, compute_run_completes _ power max_sum⟩

/-! ### Nearest-point lookup: lexicographic minimum and hit-testing -/

theorem lexLeP_refl (x : ℚ × Nat) : lexLeP x x :=
  Or.inr ⟨rfl, le_refl _⟩

theorem lexLeP_of_lt {x y : ℚ × Nat} (h : lexLtP x y) : lexLeP x y := by
  rcases h with h | ⟨h1, h2⟩
  · exact Or.inl h
  · exact Or.inr ⟨h1, Nat.le_of_lt h2⟩

theorem lexLeP_trans {x y z : ℚ × Nat} (h1 : lexLeP x y) (h2 : lexLeP y z) :
    lexLeP x z := by
  rcases h1 with h1 | ⟨e1, h1⟩
  · rcases h2 with h2 | ⟨e2, h2⟩
    · exact Or.inl (lt_trans h1 h2)
    · exact Or.inl (e2 ▸ h1)
  · rcases h2 with h2 | ⟨e2, h2⟩
    · exact Or.inl (e1 ▸ h2)
    · exact Or.inr ⟨e1.trans e2, Nat.le_trans h1 h2⟩

theorem not_lexLtP_iff {y b : ℚ × Nat} : ¬ lexLtP y b ↔ lexLeP b y := by
  unfold lexLtP lexLeP
  constructor
  · intro h
    push_neg at h
    obtain ⟨h1, h2⟩ := h
    rcases lt_or_eq_of_le h1 with hl | he
    · exact Or.inl hl
    · exact Or.inr ⟨he, h2 he.symm⟩
  · intro h hlt
    rcases h with h | ⟨e, hle⟩
    · rcases hlt with h2 | ⟨e2, _⟩
      · exact absurd h (lt_asymm h2)
      · exact absurd h (e2 ▸ lt_irrefl _)
    · rcases hlt with h2 | ⟨_, h2⟩
      · exact absurd h2 (e ▸ lt_irrefl _)
      · exact absurd h2 (Nat.not_lt.mpr hle)

theorem minTuple_spec :
    ∀ (xs : List (ℚ × Nat)) (x : ℚ × Nat),
      (minTuple x xs = x ∨ minTuple x xs ∈ xs) ∧
      ∀ y ∈ x :: xs, lexLeP (minTuple x xs) y := by
  intro xs
  induction xs with
  | nil =>
    intro x
    refine ⟨Or.inl rfl, ?_⟩
    intro y hy
    rw [List.mem_singleton.mp hy]
    exact lexLeP_refl _
  | cons z zs ih =>
    intro x
    by_cases h : lexLtP z x
    · have hfold : minTuple x (z :: zs) = minTuple z zs := by
        unfold minTuple
        rw [List.foldl_cons, if_pos h]
      obtain ⟨hmem, hmin⟩ := ih z
      rw [hfold]
      refine ⟨?_, ?_⟩
      · rcases hmem with he | he
        · exact Or.inr (List.mem_cons.mpr (Or.inl he))
        · exact Or.inr (List.mem_cons_of_mem _ he)
      · intro y hy
        rcases List.mem_cons.mp hy with rfl | hy2
        · exact lexLeP_trans (hmin z (List.mem_cons_self _ _)) (lexLeP_of_lt h)
        · exact hmin y hy2
    · have hfold : minTuple x (z :: zs) = minTuple x zs := by
        unfold minTuple
        rw [List.foldl_cons, if_neg h]
      obtain ⟨hmem, hmin⟩ := ih x
      rw [hfold]
      refine ⟨?_, ?_⟩
      · rcases hmem with he | he
        · exact Or.inl he
        · exact Or.inr (List.mem_cons_of_mem _ he)
      · intro y hy
        rcases List.mem_cons.mp hy with rfl | hy2
        · exact hmin y (List.mem_cons_self _ _)
        · rcases List.mem_cons.mp hy2 with rfl | hy3
          · exact lexLeP_trans (hmin x (List.mem_cons_self _ _))
              (not_lexLtP_iff.mp h)
          · exact hmin y (List.mem_cons_of_mem _ hy3)

theorem mem_enumFrom_iff {α : Type} (l : List α) :
    ∀ (k : Nat) (x : Nat × α),
      x ∈ List.enumFrom k l ↔ ∃ i, l.get? i = some x.2 ∧ x.1 = k + i := by
  induction l with
  | nil =>
    intro k x
    simp [List.enumFrom]
  | cons a as ih =>
    intro k x
    simp only [List.enumFrom, List.mem_cons, ih (k + 1)]
    constructor
    · rintro (rfl | ⟨i, hi, hx⟩)
      · exact ⟨0, rfl, by omega⟩
      · exact ⟨i + 1, hi, by omega⟩
    · rintro ⟨i, hi, hx⟩
      obtain ⟨x1, x2⟩ := x
      simp only at hi hx
      cases i with
      | zero =>
        left
        rw [List.get?_cons_zero, Option.some.injEq] at hi
        subst hi
        subst hx
        simp
      | succ j =>
        right
        rw [List.get?_cons_succ] at hi
        exact ⟨j, hi, by omega⟩

theorem mem_distList_iff {m : SumMap} {Tx Ty : ℚ → ℚ} {qx qy : ℚ}
    {y : ℚ × Nat} :
    y ∈ (clickSeries m).enum.map
        (fun ip => (distSq Tx Ty qx qy ip.2, ip.1)) ↔
      ∃ i pt, (clickSeries m).get? i = some pt ∧
        y = (distSq Tx Ty qx qy pt, i) := by
  rw [List.mem_map]
  constructor
  · rintro ⟨⟨i, pt⟩, hmem, rfl⟩
    unfold List.enum at hmem
    obtain ⟨j, hj, hx⟩ := (mem_enumFrom_iff _ 0 _).mp hmem
    simp only at hj hx
    exact ⟨i, pt, by rw [show i = j by omega]; exact hj, rfl⟩
  · rintro ⟨i, pt, hget, rfl⟩
    refine ⟨(i, pt), ?_, rfl⟩
    unfold List.enum
    exact (mem_enumFrom_iff _ 0 _).mpr ⟨i, hget, by omega⟩

theorem on_click_cases {m : SumMap} {Tx Ty : ℚ → ℚ} {qx qy : ℚ}
    (hne : clickSeries m ≠ []) :
    ∃ i pt, (clickSeries m).get? i = some pt ∧
      (∀ j ptj, (clickSeries m).get? j = some ptj →
        distSq Tx Ty qx qy pt < distSq Tx Ty qx qy ptj ∨
        (distSq Tx Ty qx qy pt = distSq Tx Ty qx qy ptj ∧ i ≤ j)) ∧
      on_click m Tx Ty qx qy =
        (if distSq Tx Ty qx qy pt ≤ 2500 then
          some (pt.1, pt.2, lookupSum m pt.1) else none) := by
  rcases hd : (clickSeries m).enum.map
      (fun ip => (distSq Tx Ty qx qy ip.2, ip.1)) with _ | ⟨d0, ds⟩
  · exact absurd (by
      have := congrArg List.length hd
      simp at this
      exact this) hne
  · obtain ⟨hmem, hmin⟩ := minTuple_spec ds d0
    have hbest : minTuple d0 ds ∈ (clickSeries m).enum.map
        (fun ip => (distSq Tx Ty qx qy ip.2, ip.1)) := by
      rw [hd]
      rcases hmem with he | he
      · rw [he]
        exact List.mem_cons_self _ _
      · exact List.mem_cons_of_mem _ he
    obtain ⟨i, pt, hget, hbe⟩ := mem_distList_iff.mp hbest
    refine ⟨i, pt, hget, ?_, ?_⟩
    · intro j ptj hgj
      have hy : ((distSq Tx Ty qx qy ptj, j) : ℚ × Nat) ∈
          (clickSeries m).enum.map
            (fun ip => (distSq Tx Ty qx qy ip.2, ip.1)) :=
        mem_distList_iff.mpr ⟨j, ptj, hgj, rfl⟩
      rw [hd] at hy
      have hle := hmin _ hy
      rw [hbe] at hle
      rcases hle with h1 | ⟨h1, h2⟩
      · exact Or.inl h1
      · exact Or.inr ⟨h1, h2⟩
    · have hrun : on_click m Tx Ty qx qy =
          (if (minTuple d0 ds).1 ≤ 2500 then
            (match (clickSeries m).get? (minTuple d0 ds).2 with
              | some pt2 => some (pt2.1, pt2.2, lookupSum m pt2.1)
              | none => none)
          else none) := by
        show (match (clickSeries m).enum.map
            (fun ip => (distSq Tx Ty qx qy ip.2, ip.1)) with
          | [] => none
          | d :: ds =>
            let best := minTuple d ds
            if best.1 ≤ 2500 then
              match (clickSeries m).get? best.2 with
              | some pt2 => some (pt2.1, pt2.2, lookupSum m pt2.1)
              | none => none
            else none) = _
        rw [hd]
      rw [hrun, hbe, hget]

/-- C5: Nearest-point lookup. For every non-empty series (ascending sums
with their counts) and every query, `_on_click` computes the display-space
distance to every series point and selects the minimum: any accepted
answer is a series point whose distance is within the hit radius and
minimal, and on ties (equal minimal distance) it is the first point in
ascending-sum order; a query coinciding with a projected series point is
accepted with distance 0; and when every point is farther than the hit
radius no match is produced. (Distances are compared as squares; see
`distSq`.) -/
theorem C5_nearest_point_lookup :
    ∀ (m : SumMap) (Tx Ty : ℚ → ℚ) (qx qy : ℚ), clickSeries m ≠ [] →
      (∀ s c ps, on_click m Tx Ty qx qy = some (s, c, ps) →
        ∃ i pt, (clickSeries m).get? i = some pt ∧ s = pt.1 ∧ c = pt.2 ∧
          ps = lookupSum m pt.1 ∧ distSq Tx Ty qx qy pt ≤ 2500 ∧
          (∀ j ptj, (clickSeries m).get? j = some ptj →
            distSq Tx Ty qx qy pt ≤ distSq Tx Ty qx qy ptj) ∧
          (∀ j ptj, j < i → (clickSeries m).get? j = some ptj →
            distSq Tx Ty qx qy pt < distSq Tx Ty qx qy ptj)) ∧
      ((∃ i0 pt0, (clickSeries m).get? i0 = some pt0 ∧
          Tx pt0.1 = Tx qx ∧ Ty pt0.2 = Ty qy) →
        ∃ s c ps i pt, on_click m Tx Ty qx qy = some (s, c, ps) ∧
          (clickSeries m).get? i = some pt ∧ s = pt.1 ∧
          distSq Tx Ty qx qy pt = 0) ∧
      ((∀ j ptj, (clickSeries m).get? j = some ptj →
          2500 < distSq Tx Ty qx qy ptj) →
        on_click m Tx Ty qx qy = none) := by
  intro m Tx Ty qx qy hne
  obtain ⟨i, pt, hget, hchar, heq⟩ :=
    @on_click_cases m Tx Ty qx qy hne
  refine ⟨?_, ?_, ?_⟩
  · intro s c ps hsome
    rw [heq] at hsome
    by_cases hle : distSq Tx Ty qx qy pt ≤ 2500
    · rw [if_pos hle] at hsome
      have hin := Option.some.inj hsome
      injection hin with h1 h2
      injection h2 with h2a h2b
      refine ⟨i, pt, hget, h1.symm, h2a.symm, h2b.symm, hle, ?_, ?_⟩
      · intro j ptj hgj
        rcases hchar j ptj hgj with h | ⟨h, _⟩
        · exact le_of_lt h
        · exact le_of_eq h
      · intro j ptj hji hgj
        rcases hchar j ptj hgj with h | ⟨_, h⟩
        · exact h
        · omega
    · rw [if_neg hle] at hsome
      cases hsome
  · rintro ⟨i0, pt0, hg0, hTx, hTy⟩
    have h0 : distSq Tx Ty qx qy pt0 = 0 := by
      unfold distSq
      rw [hTx, hTy]
      simp
    have hnn : 0 ≤ distSq Tx Ty qx qy pt := by
      unfold distSq
      positivity
    have hd0 : distSq Tx Ty qx qy pt = 0 := by
      rcases hchar i0 pt0 hg0 with h | ⟨h, _⟩
      · rw [h0] at h
        exact absurd h (not_lt.mpr hnn)
      · rw [h, h0]
    refine ⟨pt.1, pt.2, lookupSum m pt.1, i, pt, ?_, hget, rfl, hd0⟩
    rw [heq, if_pos (by rw [hd0]; norm_num)]
  · intro hall
    rw [heq, if_neg (not_le.mpr (hall i pt hget))]

theorem C5_nearest_point_lookup_witness :
    ∃ s c ps i pt,
      on_click [((2 : Nat), [((1 : Nat), (1 : Nat))])]
          (fun _ => 0) (fun _ => 0) 0 0 = some (s, c, ps) ∧
      (clickSeries [(2, [(1, 1)])]).get? i = some pt ∧ s = pt.1 ∧
      distSq (fun _ => 0) (fun _ => 0) 0 0 pt = 0 :=
  (C5_nearest_point_lookup [(2, [(1, 1)])] (fun _ => 0) (fun _ => 0) 0 0
    (by decide)).2.1 ⟨0, (2, 1), by decide, rfl, rfl⟩

/-- C10 (implicit): the hit radius of the nearest-point lookup is exactly
50 display units and the comparison `min_dist <= 50` is inclusive: a click
is accepted (and a point emitted) iff the minimal distance is at most 50,
i.e. the squared distance is at most 2500; in particular a query at
distance exactly 50 from the closest series point still selects it, as
the concrete boundary instance (squared distance 900 + 1600 = 2500)
shows. -/
theorem C10_hit_radius :
    (∀ (m : SumMap) (Tx Ty : ℚ → ℚ) (qx qy : ℚ), clickSeries m ≠ [] →
      ((∃ r, on_click m Tx Ty qx qy = some r) ↔
        ∃ i pt, (clickSeries m).get? i = some pt ∧
          distSq Tx Ty qx qy pt ≤ 2500)) ∧
    distSq id id 32 41 (2, 1) = 2500 ∧
    on_click [(2, [(1, 1)])] id id 32 41 = some (2, 1, [(1, 1)]) := by
  have hd : distSq id id 32 41 ((2 : Nat), (1 : Nat)) = 2500 := by
    simp only [distSq, id_eq]
    push_cast
    norm_num
  refine ⟨?_, hd, ?_⟩
  · intro m Tx Ty qx qy hne
    obtain ⟨i, pt, hget, hchar, heq⟩ :=
      @on_click_cases m Tx Ty qx qy hne
    constructor
    · rintro ⟨r, hr⟩
      rw [heq] at hr
      by_cases hle : distSq Tx Ty qx qy pt ≤ 2500
      · exact ⟨i, pt, hget, hle⟩
      · rw [if_neg hle] at hr
        cases hr
    · rintro ⟨j, ptj, hgj, hlej⟩
      have hptle : distSq Tx Ty qx qy pt ≤ 2500 := by
        rcases hchar j ptj hgj with h | ⟨h, _⟩
        · exact le_trans (le_of_lt h) hlej
        · exact le_trans (le_of_eq h) hlej
      exact ⟨(pt.1, pt.2, lookupSum m pt.1), by rw [heq, if_pos hptle]⟩
  · show (if distSq id id 32 41 ((2 : Nat), (1 : Nat)) ≤ 2500 then
        some ((2 : Nat), (1 : Nat), [((1 : Nat), (1 : Nat))])
      else none) = some (2, 1, [(1, 1)])
    rw [hd, if_pos (le_refl (2500 : ℚ))]

theorem C10_hit_radius_witness :
    ∃ r, on_click [((2 : Nat), [((1 : Nat), (1 : Nat))])]
      (fun _ => 0) (fun _ => 0) 0 0 = some r :=
  (C10_hit_radius.1 [(2, [(1, 1)])] (fun _ => 0) (fun _ => 0) 0 0
    (by decide)).mpr ⟨0, (2, 1), by decide, by simp [distSq]⟩

/-! ### Export serialization and its parser: round trip -/

theorem digitChar_isDigit {d : Nat} (h : d < 10) :
    (Nat.digitChar d).isDigit = true := by
  interval_cases d <;> decide

theorem digitChar_val {d : Nat} (h : d < 10) :
    (Nat.digitChar d).toNat - 48 = d := by
  interval_cases d <;> decide

theorem natChars_all_digits {n : Nat} :
    ∀ c ∈ natChars n, c.isDigit = true := by
  intro c hc
  unfold natChars at hc
  by_cases h : n = 0
  · rw [if_pos h] at hc
    rw [List.mem_singleton.mp hc]
    decide
  · rw [if_neg h] at hc
    rcases List.mem_map.mp hc with ⟨d, hd, rfl⟩
    rw [List.mem_reverse] at hd
    exact digitChar_isDigit (Nat.digits_lt_base (by omega) hd)

theorem natChars_ne_nil (n : Nat) : natChars n ≠ [] := by
  unfold natChars
  by_cases h : n = 0
  · rw [if_pos h]
    exact List.cons_ne_nil _ _
  · rw [if_neg h]
    intro hcontra
    have hne : Nat.digits 10 n ≠ [] := Nat.digits_ne_nil_iff_ne_zero.mpr h
    have hlen := congrArg List.length hcontra
    simp only [List.length_map, List.length_reverse, List.length_nil] at hlen
    exact hne (List.length_eq_zero.mp hlen)

theorem takeWhile_append_all {p : Char → Bool} :
    ∀ (l1 l2 : List Char), (∀ c ∈ l1, p c = true) →
      (∀ c, l2.head? = some c → p c = false) →
      (l1 ++ l2).takeWhile p = l1 ∧ (l1 ++ l2).dropWhile p = l2 := by
  intro l1
  induction l1 with
  | nil =>
    intro l2 _ h2
    cases l2 with
    | nil => exact ⟨rfl, rfl⟩
    | cons c cs =>
      have hc : p c = false := h2 c rfl
      rw [List.nil_append]
      constructor
      · rw [List.takeWhile_cons_of_neg (by simp [hc])]
      · rw [List.dropWhile_cons_of_neg (by simp [hc])]
  | cons a l1 ih =>
    intro l2 h1 h2
    have ha := h1 a (List.mem_cons_self _ _)
    obtain ⟨ht, hd⟩ := ih l2 (fun c hc => h1 c (List.mem_cons_of_mem _ hc)) h2
    rw [List.cons_append]
    constructor
    · rw [List.takeWhile_cons_of_pos (by simp [ha]), ht]
    · rw [List.dropWhile_cons_of_pos (by simp [ha]), hd]

theorem foldl_digitChars :
    ∀ (ds : List Nat), (∀ d ∈ ds, d < 10) → ∀ acc : Nat,
      (ds.map Nat.digitChar).foldl (fun acc c => 10 * acc + (c.toNat - 48)) acc
        = acc * 10 ^ ds.length + Nat.ofDigits 10 ds.reverse := by
  intro ds
  induction ds with
  | nil =>
    intro _ acc
    simp [Nat.ofDigits]
  | cons d rest ih =>
    intro hlt acc
    simp only [List.map_cons, List.foldl_cons, List.length_cons,
      List.reverse_cons]
    rw [ih (fun x hx => hlt x (List.mem_cons_of_mem _ hx)),
      digitChar_val (hlt d (List.mem_cons_self _ _)),
      Nat.ofDigits_append, Nat.ofDigits_singleton, List.length_reverse]
    ring

theorem readNat_append {n : Nat} {rest : List Char}
    (hrest : ∀ c, rest.head? = some c → c.isDigit = false) :
    readNat (natChars n ++ rest) = (n, rest) := by
  obtain ⟨ht, hd⟩ := takeWhile_append_all (natChars n) rest
    natChars_all_digits hrest
  unfold readNat
  rw [ht, hd]
  refine congrArg (fun v => (v, rest)) ?_
  unfold natChars
  by_cases h : n = 0
  · rw [if_pos h, h]
    decide
  · rw [if_neg h,
      foldl_digitChars _ (fun d hd2 =>
        Nat.digits_lt_base (by omega) (List.mem_reverse.mp hd2)) 0,
      List.reverse_reverse, Nat.ofDigits_digits, Nat.zero_mul, Nat.zero_add]


theorem readPair_append (p : Nat × Nat) (rest : List Char) :
    readPair (pairChars p ++ rest) = some (p, rest) := by
  obtain ⟨a, b⟩ := p
  have hshape : pairChars (a, b) ++ rest =
      '(' :: (natChars a ++ (',' :: (natChars b ++ (')' :: rest)))) := by
    unfold pairChars
    simp [List.append_assoc]
  have h1 : readNat (natChars a ++ (',' :: (natChars b ++ (')' :: rest)))) =
      (a, ',' :: (natChars b ++ (')' :: rest))) :=
    readNat_append (fun c hc => by
      rw [show c = ',' from (Option.some.inj hc).symm]
      decide)
  have h2 : readNat (natChars b ++ (')' :: rest)) = (b, ')' :: rest) :=
    readNat_append (fun c hc => by
      rw [show c = ')' from (Option.some.inj hc).symm]
      decide)
  rw [hshape]
  simp only [readPair, h1, h2]

theorem le_length_joinPairs :
    ∀ ps : List (Nat × Nat), ps.length ≤ (joinPairs ps).length := by
  intro ps
  induction ps with
  | nil => simp [joinPairs]
  | cons p rest ih =>
    cases rest with
    | nil => simp [joinPairs, pairChars]
    | cons q rest2 =>
      simp only [joinPairs, List.length_append, List.length_cons]
      simp only [List.length_cons] at ih
      omega

theorem joinPairs_ne_nil (p : Nat × Nat) (rest : List (Nat × Nat)) :
    joinPairs (p :: rest) ≠ [] := by
  cases rest with
  | nil => simp [joinPairs, pairChars]
  | cons q rest2 => simp [joinPairs, pairChars]

theorem readPairsAux_join :
    ∀ (ps : List (Nat × Nat)) (fuel : Nat), ps ≠ [] → ps.length ≤ fuel →
      readPairsAux fuel (joinPairs ps) = some ps := by
  intro ps
  induction ps with
  | nil => intro fuel h _; exact absurd rfl h
  | cons p rest ih =>
    intro fuel _ hlen
    cases fuel with
    | zero => simp at hlen
    | succ f =>
      cases rest with
      | nil =>
        have hj : joinPairs [p] = pairChars p ++ [] := by simp [joinPairs]
        rw [hj]
        simp only [readPairsAux, readPair_append]
      | cons q rest2 =>
        simp only [joinPairs, readPairsAux, readPair_append]
        rw [ih f (List.cons_ne_nil _ _) (by
          simp only [List.length_cons] at hlen ⊢
          omega)]
        rfl

theorem parsePairs_joinPairs (ps : List (Nat × Nat)) :
    parsePairs (joinPairs ps) = some ps := by
  cases ps with
  | nil => rfl
  | cons p rest =>
    unfold parsePairs
    rw [if_neg (joinPairs_ne_nil p rest)]
    exact readPairsAux_join (p :: rest) _ (List.cons_ne_nil _ _)
      (le_trans (le_length_joinPairs _) (by omega))

theorem parseRows_map (f : Nat → List (Nat × Nat)) :
    ∀ ks : List Nat,
      parseRows (ks.map (fun s => (s, (f s).length, joinPairs (f s)))) =
        some (ks.map (fun s => (s, f s))) := by
  intro ks
  induction ks with
  | nil => rfl
  | cons k rest ih =>
    simp only [List.map_cons, parseRows, parsePairs_joinPairs, ih]

theorem lookupSum_map_keys (ks : List Nat) (f : Nat → List (Nat × Nat))
    (s : Nat) :
    lookupSum (ks.map (fun k => (k, f k))) s = if s ∈ ks then f s else [] := by
  induction ks with
  | nil => simp [lookupSum]
  | cons k rest ih =>
    simp only [List.map_cons, lookupSum]
    by_cases hk : k = s
    · subst hk
      simp
    · have hsk : ¬ s = k := fun hcon => hk hcon.symm
      rw [if_neg hk, ih]
      simp [List.mem_cons, hsk]

theorem lookupSum_eq_nil_of_not_mem {m : SumMap} {s : Nat}
    (h : s ∉ keysOf m) : lookupSum m s = [] := by
  induction m with
  | nil => rfl
  | cons e rest ih =>
    obtain ⟨k, ps⟩ := e
    simp only [keysOf, List.map_cons, List.mem_cons] at h
    push_neg at h
    unfold lookupSum
    rw [if_neg (fun hc => h.1 hc.symm)]
    exact ih h.2

theorem mem_sortKeys {m : SumMap} {s : Nat} :
    s ∈ sortKeys m ↔ s ∈ keysOf m :=
  List.mem_insertionSort _

/-- C7: Export round-trip. The CSV export consists of the header row
`Sum,Count,Pairs` followed by exactly one row per sum value in strictly
ascending order; each row's Count is the number of pairs in that sum's
group and its Pairs column is the pairs serialized as `(a,b)` joined with
`"; "` in stored order; and parsing the table back reconstructs a mapping
with the same sums, the same counts (the groups themselves are equal),
and the same pairs in the same order. -/
theorem C7_export_roundtrip :
    ∀ m : SumMap, (keysOf m).Nodup →
      (export_csv m).1 = "Sum,Count,Pairs".toList ∧
      (export_csv m).2.map (fun row => row.1) = sortKeys m ∧
      List.Pairwise (fun x y : Nat => x < y)
        ((export_csv m).2.map (fun row => row.1)) ∧
      (∀ row ∈ (export_csv m).2,
        row.2.1 = (lookupSum m row.1).length ∧
        row.2.2 = joinPairs (lookupSum m row.1)) ∧
      ∃ m2, parseRows (export_csv m).2 = some m2 ∧
        keysOf m2 = sortKeys m ∧
        ∀ s, lookupSum m2 s = lookupSum m s := by
  intro m hnd
  have hmap : (export_csv m).2.map (fun row => row.1) = sortKeys m := by
    show (exportRows m).map (fun row => row.1) = sortKeys m
    unfold exportRows
    rw [List.map_map]
    exact List.map_id'' (fun s => rfl) _
  refine ⟨rfl, hmap, ?_, ?_, ?_⟩
  · rw [hmap]
    have hs : List.Sorted (· ≤ ·) (sortKeys m) :=
      List.sorted_insertionSort _ _
    have hn : (sortKeys m).Nodup :=
      ((List.perm_insertionSort _ _).nodup_iff).mpr hnd
    exact List.Sorted.lt_of_le hs hn
  · intro row hrow
    rcases List.mem_map.mp hrow with ⟨s, _, rfl⟩
    exact ⟨rfl, rfl⟩
  · refine ⟨(sortKeys m).map (fun s => (s, lookupSum m s)), ?_, ?_, ?_⟩
    · exact parseRows_map (fun s => lookupSum m s) (sortKeys m)
    · unfold keysOf
      rw [List.map_map]
      exact List.map_id'' (fun s => rfl) _
    · intro s
      rw [lookupSum_map_keys]
      by_cases hs : s ∈ sortKeys m
      · rw [if_pos hs]
      · rw [if_neg hs]
        exact (lookupSum_eq_nil_of_not_mem
          (fun hc => hs (mem_sortKeys.mpr hc))).symm

theorem C7_export_roundtrip_witness :
    ∃ m2, parseRows (export_csv (compute_power_sums 2 10)).2 = some m2 ∧
      keysOf m2 = sortKeys (compute_power_sums 2 10) ∧
      ∀ s, lookupSum m2 s = lookupSum (compute_power_sums 2 10) s :=
  (C7_export_roundtrip (compute_power_sums 2 10) (by decide)).2.2.2.2
